import Mathlib

/-!
Verification of the streamstats streaming-estimator library.

The Go source is shallowly embedded: IEEE-754 float64 arithmetic is modelled
by exact rational (or, where transcendental functions occur, real) arithmetic,
uint64 arithmetic by natural numbers with explicit wrap-around where the code
relies on it, and the stateful Hash64 capability by a pure function from items
(modelled as naturals) to 64-bit hash values, which is supported by the
requirement that a hash be deterministic and reset before every use.
-/

/-! ## MomentStats (momentstats.go, lock-free draft)

Floating-point values are modelled as FloatQ = Option Rat: some q is the
finite float64 with exact value q, none is a non-finite float64 (NaN or an
infinity).  The arithmetic below propagates none and makes every division by
zero non-finite; this is faithful for the embedded code, whose divisors are
always casts of sample counts (so 1/Inf and similar finite-from-non-finite
results never arise).  In particular Combine of two empty states divides
0 by 0 and yields none, exactly as the Go code yields NaN there. -/

abbrev FloatQ := Option Rat

def fadd : FloatQ → FloatQ → FloatQ
  | some a, some b => some (a + b)
  | _, _ => none

def fsub : FloatQ → FloatQ → FloatQ
  | some a, some b => some (a - b)
  | _, _ => none

def fmul : FloatQ → FloatQ → FloatQ
  | some a, some b => some (a * b)
  | _, _ => none

def fdiv : FloatQ → FloatQ → FloatQ
  | some a, some b => if b = 0 then none else some (a / b)
  | _, _ => none

instance : Add FloatQ := ⟨fadd⟩

instance : Sub FloatQ := ⟨fsub⟩

instance : Mul FloatQ := ⟨fmul⟩

instance : Div FloatQ := ⟨fdiv⟩

theorem fadd_some (a b : Rat) : (some a : FloatQ) + (some b : FloatQ) = some (a + b) := rfl

theorem fsub_some (a b : Rat) : (some a : FloatQ) - (some b : FloatQ) = some (a - b) := rfl

theorem fmul_some (a b : Rat) : (some a : FloatQ) * (some b : FloatQ) = some (a * b) := rfl

theorem fdiv_some (a b : Rat) (h : b ≠ 0) :
    (some a : FloatQ) / (some b : FloatQ) = some (a / b) := by
  show fdiv (some a) (some b) = some (a / b)
  rw [fdiv, if_neg h]

structure MomentStats where
  n  : Nat
  m1 : FloatQ
  m2 : FloatQ
  m3 : FloatQ
  m4 : FloatQ
deriving DecidableEq

def NewMomentStats : MomentStats := ⟨0, some 0, some 0, some 0, some 0⟩

/-- Push from momentstats.go, on a finite sample x.  The Go code updates m1
first, but delta, deltaN and term1 are computed from the previous m1, and
the m4, m3, m2 updates read only the previous m2 and m3, so every right-hand
side below refers to the pre-push state. -/
def MomentStats.Push (m : MomentStats) (x : Rat) : MomentStats :=
  let n' := m.n + 1
  let fN : FloatQ := some ((n' : Nat) : Rat)
  let delta := (some x : FloatQ) - m.m1
  let deltaN := delta / fN
  let deltaN2 := deltaN * deltaN
  let term1 := delta * deltaN * (fN - some 1)
  { n := n'
    m1 := m.m1 + deltaN
    m4 := m.m4 + (term1 * deltaN2 * (fN * fN - some 3 * fN + some 3)
            + some 6 * deltaN2 * m.m2 - some 4 * deltaN * m.m3)
    m3 := m.m3 + (term1 * deltaN * (fN - some 2) - some 3 * deltaN * m.m2)
    m2 := m.m2 + term1 }

/-- Combine from momentstats.go (Pebay parallel formulas).  When both inputs
are empty, cN is zero and every division yields none, as the Go float64 code
yields NaN. -/
def MomentStats.Combine (m b : MomentStats) : MomentStats :=
  let cn := m.n + b.n
  let mN : FloatQ := some ((m.n : Nat) : Rat)
  let bN : FloatQ := some ((b.n : Nat) : Rat)
  let cN : FloatQ := some ((cn : Nat) : Rat)
  let delta := b.m1 - m.m1
  let delta2 := delta * delta
  let delta3 := delta * delta2
  let delta4 := delta2 * delta2
  { n := cn
    m1 := (mN * m.m1 + bN * b.m1) / cN
    m2 := m.m2 + b.m2 + delta2 * mN * bN / cN
    m3 := m.m3 + b.m3 + delta3 * mN * bN * (mN - bN) / (cN * cN)
            + some 3 * delta * (mN * b.m2 - bN * m.m2) / cN
    m4 := m.m4 + b.m4 + delta4 * mN * bN * (mN * mN - mN * bN + bN * bN) / (cN * cN * cN)
            + (some 6 * delta2 * (mN * mN * b.m2 + bN * bN * m.m2) / (cN * cN)
               + some 4 * delta * (mN * b.m3 - bN * m.m3) / cN) }

/-- Folding a finite sample sequence into a MomentStats, one Push per sample. -/
def msFold (xs : List Rat) : MomentStats := xs.foldl MomentStats.Push NewMomentStats

/-! The finite-value layer: on states whose moments are all finite, Push and
Combine compute the rational values below; the algebraic work is done here
and transported along liftFin. -/

structure MomentStatsFin where
  n  : Nat
  m1 : Rat
  m2 : Rat
  m3 : Rat
  m4 : Rat
deriving DecidableEq

def newMomentStatsFin : MomentStatsFin := ⟨0, 0, 0, 0, 0⟩

def MomentStatsFin.push (m : MomentStatsFin) (x : Rat) : MomentStatsFin :=
  let n' := m.n + 1
  let fN : Rat := (n' : Rat)
  let delta := x - m.m1
  let deltaN := delta / fN
  let deltaN2 := deltaN * deltaN
  let term1 := delta * deltaN * (fN - 1)
  { n := n'
    m1 := m.m1 + deltaN
    m4 := m.m4 + (term1 * deltaN2 * (fN * fN - 3 * fN + 3) + 6 * deltaN2 * m.m2 - 4 * deltaN * m.m3)
    m3 := m.m3 + (term1 * deltaN * (fN - 2) - 3 * deltaN * m.m2)
    m2 := m.m2 + term1 }

def MomentStatsFin.combine (m b : MomentStatsFin) : MomentStatsFin :=
  let cn := m.n + b.n
  let mN : Rat := (m.n : Rat)
  let bN : Rat := (b.n : Rat)
  let cN : Rat := (cn : Rat)
  let delta := b.m1 - m.m1
  let delta2 := delta * delta
  let delta3 := delta * delta2
  let delta4 := delta2 * delta2
  { n := cn
    m1 := (mN * m.m1 + bN * b.m1) / cN
    m2 := m.m2 + b.m2 + delta2 * mN * bN / cN
    m3 := m.m3 + b.m3 + delta3 * mN * bN * (mN - bN) / (cN * cN)
            + 3 * delta * (mN * b.m2 - bN * m.m2) / cN
    m4 := m.m4 + b.m4 + delta4 * mN * bN * (mN * mN - mN * bN + bN * bN) / (cN * cN * cN)
            + (6 * delta2 * (mN * mN * b.m2 + bN * bN * m.m2) / (cN * cN)
               + 4 * delta * (mN * b.m3 - bN * m.m3) / cN) }

def msFoldFin (xs : List Rat) : MomentStatsFin := xs.foldl MomentStatsFin.push newMomentStatsFin

def liftFin (s : MomentStatsFin) : MomentStats :=
  ⟨s.n, some s.m1, some s.m2, some s.m3, some s.m4⟩

set_option maxHeartbeats 2000000

theorem push_lift (s : MomentStatsFin) (x : Rat) :
    (liftFin s).Push x = liftFin (s.push x) := by
  have hfN : ((s.n + 1 : Nat) : Rat) ≠ 0 := by positivity
  simp only [MomentStats.Push, MomentStatsFin.push, liftFin, fadd_some, fsub_some, fmul_some,
    fdiv_some _ _ hfN, fadd_some, fsub_some, fmul_some]

theorem combine_lift (a b : MomentStatsFin) (h : 0 < a.n + b.n) :
    (liftFin a).Combine (liftFin b) = liftFin (a.combine b) := by
  have hc : ((a.n + b.n : Nat) : Rat) ≠ 0 := by
    have hpos : (0 : Rat) < ((a.n + b.n : Nat) : Rat) := by exact_mod_cast h
    linarith
  have hc2 : ((a.n + b.n : Nat) : Rat) * ((a.n + b.n : Nat) : Rat) ≠ 0 := mul_ne_zero hc hc
  have hc3 : ((a.n + b.n : Nat) : Rat) * ((a.n + b.n : Nat) : Rat) * ((a.n + b.n : Nat) : Rat)
      ≠ 0 := mul_ne_zero hc2 hc
  simp only [MomentStats.Combine, MomentStatsFin.combine, liftFin, fadd_some, fsub_some,
    fmul_some, fdiv_some _ _ hc, fdiv_some _ _ hc2, fdiv_some _ _ hc3, fadd_some, fsub_some,
    fmul_some]

theorem msFold_lift (xs : List Rat) : msFold xs = liftFin (msFoldFin xs) := by
  have hgen : ∀ s : MomentStatsFin,
      xs.foldl MomentStats.Push (liftFin s) = liftFin (xs.foldl MomentStatsFin.push s) := by
    induction xs with
    | nil => intro s; rfl
    | cons x xs ih =>
        intro s
        rw [List.foldl_cons, List.foldl_cons, push_lift, ih]
  have hnew : NewMomentStats = liftFin newMomentStatsFin := rfl
  rw [msFold, msFoldFin, hnew, hgen]

/-- Raw power-sum coordinates of a finite MomentStats state, used as a proof
device: s1 = n m1 and, for k = 2..4, sk is the sum of k-th powers recovered
from the centered moments.  In these coordinates push adds
(1, x, x^2, x^3, x^4) and combine adds componentwise. -/
structure RawMoments where
  n  : Nat
  s1 : Rat
  s2 : Rat
  s3 : Rat
  s4 : Rat
deriving DecidableEq

def MomentStatsFin.toRaw (m : MomentStatsFin) : RawMoments :=
  { n := m.n
    s1 := (m.n : Rat) * m.m1
    s2 := m.m2 + (m.n : Rat) * m.m1 ^ 2
    s3 := m.m3 + 3 * m.m1 * m.m2 + (m.n : Rat) * m.m1 ^ 3
    s4 := m.m4 + 4 * m.m1 * m.m3 + 6 * m.m1 ^ 2 * m.m2 + (m.n : Rat) * m.m1 ^ 4 }

def RawMoments.add (a b : RawMoments) : RawMoments :=
  ⟨a.n + b.n, a.s1 + b.s1, a.s2 + b.s2, a.s3 + b.s3, a.s4 + b.s4⟩

def rawOfSample (x : Rat) : RawMoments := ⟨1, x, x ^ 2, x ^ 3, x ^ 4⟩

theorem toRaw_push (m : MomentStatsFin) (x : Rat) :
    (m.push x).toRaw = m.toRaw.add (rawOfSample x) := by
  have hN : ((m.n : Rat) + 1) ≠ 0 := by positivity
  simp only [MomentStatsFin.push, MomentStatsFin.toRaw, RawMoments.add, rawOfSample,
    RawMoments.mk.injEq]
  refine ⟨trivial, ?_, ?_, ?_, ?_⟩ <;>
  · push_cast
    field_simp
    try ring

theorem toRaw_combine (a b : MomentStatsFin) (h : 0 < a.n + b.n) :
    (a.combine b).toRaw = a.toRaw.add b.toRaw := by
  have hc : ((a.n : Rat) + b.n) ≠ 0 := by
    have : (0 : Rat) < (a.n : Rat) + (b.n : Rat) := by exact_mod_cast h
    linarith
  simp only [MomentStatsFin.combine, MomentStatsFin.toRaw, RawMoments.add,
    RawMoments.mk.injEq]
  refine ⟨trivial, ?_, ?_, ?_, ?_⟩ <;>
  · push_cast
    field_simp
    try ring

theorem toRaw_inj (s t : MomentStatsFin) (hn : s.n ≠ 0) (h : s.toRaw = t.toRaw) :
    s = t := by
  obtain ⟨ns, a1, a2, a3, a4⟩ := s
  obtain ⟨nt, b1, b2, b3, b4⟩ := t
  simp only [MomentStatsFin.toRaw, RawMoments.mk.injEq] at h
  obtain ⟨h0, h1, h2, h3, h4⟩ := h
  subst h0
  simp only at hn
  have hne : ((ns : Rat)) ≠ 0 := Nat.cast_ne_zero.mpr hn
  have e1 : a1 = b1 := mul_left_cancel₀ hne h1
  subst e1
  have e2 : a2 = b2 := by
    have := h2
    nlinarith [this]
  subst e2
  have e3 : a3 = b3 := by nlinarith [h3]
  subst e3
  have e4 : a4 = b4 := by nlinarith [h4]
  subst e4
  rfl

theorem toRaw_foldl (xs : List Rat) :
    ∀ s : MomentStatsFin, (xs.foldl MomentStatsFin.push s).toRaw
      = xs.foldl (fun r x => r.add (rawOfSample x)) s.toRaw := by
  induction xs with
  | nil => intro s; rfl
  | cons x xs ih =>
      intro s
      simp only [List.foldl_cons, ih (s.push x), toRaw_push]

theorem msFoldFin_n (xs : List Rat) : (msFoldFin xs).n = xs.length := by
  have h : ∀ s : MomentStatsFin, (xs.foldl MomentStatsFin.push s).n = s.n + xs.length := by
    induction xs with
    | nil => intro s; simp
    | cons x xs ih =>
        intro s
        rw [List.foldl_cons, ih (s.push x)]
        have hp : (s.push x).n = s.n + 1 := rfl
        rw [hp, List.length_cons]
        omega
  simpa [msFoldFin, newMomentStatsFin] using h newMomentStatsFin

theorem rawFold_append (xs ys : List Rat) (r : RawMoments) :
    (xs ++ ys).foldl (fun r x => r.add (rawOfSample x)) r
      = ys.foldl (fun r x => r.add (rawOfSample x)) (xs.foldl (fun r x => r.add (rawOfSample x)) r) :=
  List.foldl_append ..

theorem msFoldFin_combine_concat (xs ys : List Rat) (h : xs ++ ys ≠ []) :
    (msFoldFin xs).combine (msFoldFin ys) = msFoldFin (xs ++ ys) := by
  have hlen : 0 < xs.length + ys.length := by
    rcases xs with - | ⟨x, xs⟩
    · rcases ys with - | ⟨y, ys⟩
      · simp at h
      · simp
    · simp [Nat.succ_add]
  have hn : 0 < (msFoldFin xs).n + (msFoldFin ys).n := by
    rw [msFoldFin_n, msFoldFin_n]; exact hlen
  apply toRaw_inj
  · have hcn : ((msFoldFin xs).combine (msFoldFin ys)).n
        = (msFoldFin xs).n + (msFoldFin ys).n := rfl
    omega
  · rw [toRaw_combine _ _ hn]
    unfold msFoldFin
    rw [toRaw_foldl, toRaw_foldl, toRaw_foldl, rawFold_append]
    have key : ∀ (zs : List Rat) (u v : RawMoments),
        u.add (zs.foldl (fun r x => r.add (rawOfSample x)) v)
          = zs.foldl (fun r x => r.add (rawOfSample x)) (u.add v) := by
      intro zs
      induction zs with
      | nil => intro u v; rfl
      | cons z zs ih =>
          intro u v
          simp only [List.foldl_cons, ih]
          congr 1
          simp only [RawMoments.add, RawMoments.mk.injEq]
          exact ⟨by omega, by ring, by ring, by ring, by ring⟩
    rw [key]
    congr 1
    have hr0 : newMomentStatsFin.toRaw = ⟨0, 0, 0, 0, 0⟩ := by
      simp [newMomentStatsFin, MomentStatsFin.toRaw]
    rw [hr0]
    cases xs.foldl (fun r x => r.add (rawOfSample x)) (⟨0, 0, 0, 0, 0⟩ : RawMoments) with
    | mk n s1 s2 s3 s4 => simp [RawMoments.add]

/-- C1 counterexample: with both sample sequences empty, Combine divides
zero by zero and produces non-finite moments (NaN in the Go float64 code),
while the MomentStats built from the empty concatenation has zero moments,
so the two are not equal (and NaN is within no floating-point tolerance of
zero). -/
theorem momentstats_combine_empty_counterexample :
    (msFold ([] : List Rat)).Combine (msFold ([] : List Rat))
      ≠ msFold (([] : List Rat) ++ ([] : List Rat)) := by
  decide

/-- C1 (amended): whenever at least one of the finite sample sequences xs
and ys is nonempty, Combining the MomentStats built from xs with the one
built from ys gives exactly (in the exact-rational model of finite float64
arithmetic) the MomentStats built from the concatenation xs ++ ys.  When
both are empty the Go code divides 0 by 0 and returns NaN moments; see the
counterexample. -/
theorem momentstats_combine_concat (xs ys : List Rat) (h : xs ++ ys ≠ []) :
    (msFold xs).Combine (msFold ys) = msFold (xs ++ ys) := by
  have hlen : 0 < xs.length + ys.length := by
    rcases xs with - | ⟨x, xs⟩
    · rcases ys with - | ⟨y, ys⟩
      · simp at h
      · simp
    · simp [Nat.succ_add]
  have hn : 0 < (msFoldFin xs).n + (msFoldFin ys).n := by
    rw [msFoldFin_n, msFoldFin_n]; exact hlen
  rw [msFold_lift, msFold_lift, msFold_lift, combine_lift _ _ hn]
  exact congrArg liftFin (msFoldFin_combine_concat xs ys h)

theorem momentstats_combine_concat_witness :
    (([(1 : Rat), 2] ++ [(3 : Rat)]) ≠ []) ∧
    (msFold [(1 : Rat), 2]).Combine (msFold [(3 : Rat)]) = msFold ([(1 : Rat), 2] ++ [(3 : Rat)]) :=
  ⟨by decide, momentstats_combine_concat [(1 : Rat), 2] [(3 : Rat)] (by decide)⟩

/-! ## BitVector

Modelled from the spec: the BitVector implementation file itself is not under
src (only bitvector_test.go and the callers are), so the definitions below
follow the spec text: an ordered sequence of L bits stored as 64-bit words,
where bit index n lives in word n >>> 6 at position n &&& 63, and the word
count allocated for L bits is 1 + ((L - 1) >>> 6) (the count the BitVector
unit test demands).  PopCount is the number of set bits; the SWAR byte-trick
of the spec is modelled as a plain per-position count. -/

abbrev BitVector := List Nat

def NewBitVector (L : Nat) : BitVector := List.replicate (1 + ((L - 1) >>> 6)) 0

def BitVector.Set (b : BitVector) (n : Nat) : BitVector :=
  b.set (n >>> 6) (b.getD (n >>> 6) 0 ||| (1 <<< (n &&& 63)))

def BitVector.Get (b : BitVector) (n : Nat) : Nat :=
  (b.getD (n >>> 6) 0 >>> (n &&& 63)) &&& 1

def BitVector.PopCount (b : BitVector) : Nat :=
  b.foldl (fun acc w => acc + ((List.range 64).map (fun i => (w >>> i) &&& 1)).sum) 0

theorem and_63_eq_mod (n : Nat) : n &&& 63 = n % 64 := by
  apply Nat.eq_of_testBit_eq
  intro i
  have h64 : (64 : Nat) = 2 ^ 6 := by norm_num
  rw [Nat.testBit_and, h64, Nat.testBit_mod_two_pow]
  rcases lt_or_ge i 6 with h | h
  · have h63 : (63 : Nat).testBit i = true := by
      interval_cases i <;> decide
    simp [h63, h]
  · have h63 : (63 : Nat).testBit i = false := by
      have hlt : (63 : Nat) < 2 ^ i := by
        calc (63 : Nat) < 2 ^ 6 := by norm_num
        _ ≤ 2 ^ i := Nat.pow_le_pow_right (by norm_num) h
      exact Nat.testBit_lt_two_pow hlt
    simp [h63, Nat.not_lt.mpr h]

theorem BitVector.get_eq_testBit (b : BitVector) (n : Nat) :
    b.Get n = ((b.getD (n >>> 6) 0).testBit (n &&& 63)).toNat := by
  rw [BitVector.Get, Nat.and_one_is_mod, Nat.testBit_to_div_mod, Nat.shiftRight_eq_div_pow]
  rcases Nat.mod_two_eq_zero_or_one (b.getD (n >>> 6) 0 / 2 ^ (n &&& 63)) with h | h <;>
    rw [h] <;> rfl

theorem BitVector.getD_set_word (b : BitVector) (i j : Nat) (v : Nat) :
    (b.set i v).getD j 0 = if i = j ∧ i < b.length then v else b.getD j 0 := by
  rw [List.getD_eq_getElem?_getD, List.getD_eq_getElem?_getD, List.getElem?_set]
  rcases eq_or_ne i j with rfl | hne
  · rcases lt_or_ge i b.length with hlt | hge
    · simp [hlt]
    · have : b[i]? = none := by
        rw [List.getElem?_eq_none_iff]; omega
      simp [Nat.not_lt.mpr hge, this]
  · simp [hne]

theorem BitVector.get_set_self (b : BitVector) (n : Nat) (h : n >>> 6 < b.length) :
    (b.Set n).Get n = 1 := by
  rw [BitVector.Set, BitVector.get_eq_testBit, BitVector.getD_set_word]
  rw [if_pos ⟨rfl, h⟩, Nat.testBit_lor, Nat.one_shiftLeft, Nat.testBit_two_pow_self]
  simp

theorem BitVector.get_set_mono (b : BitVector) (ns nq : Nat) (h : b.Get nq = 1) :
    (b.Set ns).Get nq = 1 := by
  rw [BitVector.get_eq_testBit] at h
  rw [BitVector.Set, BitVector.get_eq_testBit, BitVector.getD_set_word]
  split
  · next hcond =>
      obtain ⟨hw, -⟩ := hcond
      rw [← hw] at h
      rw [Nat.testBit_lor]
      cases hb : (b.getD (ns >>> 6) 0).testBit (nq &&& 63) with
      | false => rw [hb] at h; simp at h
      | true => simp [hb]
  · exact h

/-! ## BloomFilter (unnamed bloomfilter source file) -/

structure BloomFilter where
  hash : Nat → Nat
  bits : BitVector
  k : Nat
  m : Nat

/-- One iteration of the Add loop for i = 1..k-1: h1 += h2 (wrapping mod
2^64 as Go uint64 addition does), then set bit h1 &&& (m-1).  The counter
argument is the number of remaining iterations. -/
def bfAddLoop (h2 m : Nat) : BitVector → Nat → Nat → BitVector
  | bits, _, 0 => bits
  | bits, h1, c + 1 =>
      let h1' := (h1 + h2) % 2 ^ 64
      bfAddLoop h2 m (BitVector.Set bits (h1' &&& (m - 1))) h1' c

def BloomFilter.Add (bf : BloomFilter) (item : Nat) : BloomFilter :=
  let hash := bf.hash item
  let h1 := hash &&& (2 ^ 32 - 1)
  let h2 := hash >>> 32
  { bf with bits := bfAddLoop h2 bf.m (BitVector.Set bf.bits (h1 &&& (bf.m - 1))) h1 (bf.k - 1) }

/-- One iteration of the Check loop for i = 1..k-1. -/
def bfCheckLoop (h2 m : Nat) (bits : BitVector) : Nat → Nat → Bool
  | _, 0 => true
  | h1, c + 1 =>
      let h1' := (h1 + h2) % 2 ^ 64
      if BitVector.Get bits (h1' &&& (m - 1)) ≠ 1 then false
      else bfCheckLoop h2 m bits h1' c

def BloomFilter.Check (bf : BloomFilter) (item : Nat) : Bool :=
  let hash := bf.hash item
  let h1 := hash &&& (2 ^ 32 - 1)
  let h2 := hash >>> 32
  if BitVector.Get bf.bits (h1 &&& (bf.m - 1)) ≠ 1 then false
  else bfCheckLoop h2 bf.m bf.bits h1 (bf.k - 1)

/-- Well-formedness as established by NewBloomFilter: at least one bucket,
and the backing word array covers the m bit positions. -/
def BloomFilter.WF (bf : BloomFilter) : Prop :=
  1 ≤ bf.m ∧ bf.m ≤ 64 * bf.bits.length

theorem bfIndex_word_lt (m len idx : Nat) (h1 : 1 ≤ m) (h2 : m ≤ 64 * len) :
    (idx &&& (m - 1)) >>> 6 < len := by
  have hle : idx &&& (m - 1) ≤ m - 1 := Nat.and_le_right
  have hlt : idx &&& (m - 1) < m := by omega
  rw [Nat.shiftRight_eq_div_pow]
  have : idx &&& (m - 1) < len * 2 ^ 6 := by
    have : (2 : Nat) ^ 6 = 64 := by norm_num
    omega
  exact Nat.div_lt_iff_lt_mul (by norm_num) |>.mpr this

theorem bfAddLoop_length (h2 m : Nat) (bits : BitVector) (h1 c : Nat) :
    (bfAddLoop h2 m bits h1 c).length = bits.length := by
  induction c generalizing bits h1 with
  | zero => rfl
  | succ c ih =>
      rw [bfAddLoop, ih]
      exact List.length_set ..

theorem bfAddLoop_mono (h2 m : Nat) (bits : BitVector) (h1 c nq : Nat)
    (h : bits.Get nq = 1) : (bfAddLoop h2 m bits h1 c).Get nq = 1 := by
  induction c generalizing bits h1 with
  | zero => exact h
  | succ c ih =>
      rw [bfAddLoop]
      exact ih _ _ (BitVector.get_set_mono _ _ _ h)

theorem bfCheckLoop_mono (h2 m : Nat) (bits bits' : BitVector) (h1 c : Nat)
    (hsub : ∀ n, bits.Get n = 1 → bits'.Get n = 1)
    (h : bfCheckLoop h2 m bits h1 c = true) : bfCheckLoop h2 m bits' h1 c = true := by
  induction c generalizing h1 with
  | zero => rfl
  | succ c ih =>
      rw [bfCheckLoop] at h ⊢
      split at h
      · exact absurd h (by simp)
      · next hget =>
          have hbit : BitVector.Get bits ((h1 + h2) % 2 ^ 64 &&& (m - 1)) = 1 := by
            by_contra hc
            exact hget hc
          rw [if_neg (not_not_intro (hsub _ hbit))]
          exact ih _ h

theorem bfCheckLoop_addLoop (h2 m : Nat) (bits : BitVector) (h1 c : Nat)
    (hm : 1 ≤ m) (hlen : m ≤ 64 * bits.length) :
    bfCheckLoop h2 m (bfAddLoop h2 m bits h1 c) h1 c = true := by
  induction c generalizing bits h1 with
  | zero => rfl
  | succ c ih =>
      rw [bfAddLoop, bfCheckLoop]
      set h1' := (h1 + h2) % 2 ^ 64 with hh1
      have hset : (BitVector.Set bits (h1' &&& (m - 1))).Get (h1' &&& (m - 1)) = 1 :=
        BitVector.get_set_self _ _ (bfIndex_word_lt m bits.length h1' hm hlen)
      have hfin : (bfAddLoop h2 m (BitVector.Set bits (h1' &&& (m - 1))) h1' c).Get
          (h1' &&& (m - 1)) = 1 := bfAddLoop_mono _ _ _ _ _ _ hset
      rw [if_neg (not_not_intro hfin)]
      apply ih
      rw [BitVector.Set, List.length_set]
      exact hlen

theorem BloomFilter.check_add_self (bf : BloomFilter) (x : Nat) (hwf : bf.WF) :
    (bf.Add x).Check x = true := by
  obtain ⟨hm, hlen⟩ := hwf
  rw [BloomFilter.Add, BloomFilter.Check]
  simp only
  set hash := bf.hash x
  set h1 := hash &&& (2 ^ 32 - 1)
  set h2 := hash >>> 32
  have hset : (BitVector.Set bf.bits (h1 &&& (bf.m - 1))).Get (h1 &&& (bf.m - 1)) = 1 :=
    BitVector.get_set_self _ _ (bfIndex_word_lt bf.m bf.bits.length h1 hm hlen)
  have hfirst : (bfAddLoop h2 bf.m (BitVector.Set bf.bits (h1 &&& (bf.m - 1))) h1 (bf.k - 1)).Get
      (h1 &&& (bf.m - 1)) = 1 := bfAddLoop_mono _ _ _ _ _ _ hset
  rw [if_neg (not_not_intro hfirst)]
  apply bfCheckLoop_addLoop
  · exact hm
  · rw [BitVector.Set, List.length_set]
    exact hlen

theorem BloomFilter.add_wf (bf : BloomFilter) (y : Nat) (hwf : bf.WF) : (bf.Add y).WF := by
  obtain ⟨hm, hlen⟩ := hwf
  refine ⟨hm, ?_⟩
  show bf.m ≤ 64 * (bfAddLoop _ _ _ _ _).length
  rw [bfAddLoop_length, BitVector.Set, List.length_set]
  exact hlen

theorem BloomFilter.check_mono_bits (hash : Nat → Nat) (bits bits' : BitVector)
    (k m x : Nat) (hsub : ∀ n, bits.Get n = 1 → bits'.Get n = 1)
    (h : BloomFilter.Check ⟨hash, bits, k, m⟩ x = true) :
    BloomFilter.Check ⟨hash, bits', k, m⟩ x = true := by
  rw [BloomFilter.Check] at h ⊢
  simp only at h ⊢
  split at h
  · exact absurd h (by simp)
  · next hget =>
      have hone := not_not.mp hget
      rw [if_neg (not_not_intro (hsub _ hone))]
      exact bfCheckLoop_mono _ _ _ _ _ _ hsub h

theorem BloomFilter.check_mono_add (bf : BloomFilter) (x y : Nat)
    (h : bf.Check x = true) : (bf.Add y).Check x = true := by
  obtain ⟨hash, bits, k, m⟩ := bf
  have hsub : ∀ n, bits.Get n = 1 →
      ((BloomFilter.Add ⟨hash, bits, k, m⟩ y).bits).Get n = 1 := by
    intro n hn
    exact bfAddLoop_mono _ _ _ _ _ _ (BitVector.get_set_mono _ _ _ hn)
  exact BloomFilter.check_mono_bits hash bits _ k m x hsub h

theorem BloomFilter.check_fold_mono (items : List Nat) (bf : BloomFilter) (x : Nat)
    (h : bf.Check x = true) : (items.foldl BloomFilter.Add bf).Check x = true := by
  induction items generalizing bf with
  | nil => exact h
  | cons y ys ih =>
      rw [List.foldl_cons]
      exact ih _ (BloomFilter.check_mono_add _ _ _ h)

/-- C2: a Bloom filter never produces a false negative: after any sequence of
Adds to a well-formed BloomFilter, Check returns true for every item that was
Added. -/
theorem bloomfilter_no_false_negative (bf : BloomFilter) (hwf : bf.WF)
    (items : List Nat) (x : Nat) (hx : x ∈ items) :
    (items.foldl BloomFilter.Add bf).Check x = true := by
  induction items generalizing bf with
  | nil => cases hx
  | cons y ys ih =>
      rw [List.foldl_cons]
      rcases List.mem_cons.mp hx with rfl | hmem
      · exact BloomFilter.check_fold_mono ys _ x (BloomFilter.check_add_self bf x hwf)
      · exact ih (bf.Add y) (BloomFilter.add_wf bf y hwf) hmem

theorem bloomfilter_no_false_negative_witness :
    (BloomFilter.WF ⟨fun i => i, NewBitVector 64, 3, 64⟩ ∧ (5 : Nat) ∈ [(5 : Nat), 9]) ∧
    (([(5 : Nat), 9]).foldl BloomFilter.Add ⟨fun i => i, NewBitVector 64, 3, 64⟩).Check 5 = true :=
  ⟨⟨⟨by decide, by decide⟩, by decide⟩,
    bloomfilter_no_false_negative ⟨fun i => i, NewBitVector 64, 3, 64⟩ ⟨by decide, by decide⟩
      [5, 9] 5 (by decide)⟩

/-! ## LinearCounting (unnamed linearcounting source file, v2 draft) -/

def minLinearCountingP : Nat := 6

def maxLinearCountingP : Nat := 24

structure LinearCounting where
  hash : Nat → Nat
  bits : BitVector
  p : Nat

def NewLinearCounting (p : Nat) (hash : Nat → Nat) : LinearCounting :=
  let p := if p < minLinearCountingP then minLinearCountingP
           else if p > maxLinearCountingP then maxLinearCountingP else p
  let m : Nat := 1 <<< p
  ⟨hash, NewBitVector m, p⟩

def LinearCounting.Add (lc : LinearCounting) (item : Nat) : LinearCounting :=
  let hash := lc.hash item
  let bucket := hash >>> (64 - lc.p)
  { lc with bits := lc.bits.Set bucket }

noncomputable def LinearCounting.Distinct (lc : LinearCounting) : Nat :=
  let m : Nat := 1 <<< lc.p
  let zeroCount := m - lc.bits.PopCount
  if 0 < zeroCount then
    (⌊(m : ℝ) * Real.log ((m : ℝ) / (zeroCount : ℝ))⌋).toNat
  else 1 <<< lc.p

/-- Iterations j = 0 .. c-1 of the inner folding loop of Compress:
bitsToFold[j] |= bitsToFold[j + mFold]. -/
def lcFoldStepAux : BitVector → Nat → Nat → BitVector
  | bits, _, 0 => bits
  | bits, mFold, j + 1 =>
      let b := lcFoldStepAux bits mFold j
      b.set j (b.getD j 0 ||| b.getD (j + mFold) 0)

/-- One full pass of the folding loop at outer index i, with
mFold = 1 <<< (i - 7) words (half the current length in units of 64 bits). -/
def lcFoldStep (bits : BitVector) (i : Nat) : BitVector :=
  lcFoldStepAux bits (1 <<< (i - 7)) (1 <<< (i - 7))

/-- The outer folding loop of Compress: for i := lc.p; i > p; i-- do one pass.
The last argument is the remaining number of passes, lc.p - p. -/
def lcFoldDown : BitVector → Nat → Nat → BitVector
  | bits, _, 0 => bits
  | bits, i, d + 1 => lcFoldDown (lcFoldStep bits i) (i - 1) d

/-- The clamped precision that Compress gives the new sketch. -/
def lcCompressP (p0 factor : Nat) : Nat :=
  let p := if p0 > factor then p0 - factor else 0
  if p < minLinearCountingP then minLinearCountingP else p

def LinearCounting.Compress (lc : LinearCounting) (factor : Nat) : LinearCounting :=
  let p := lcCompressP lc.p factor
  let newLC := NewLinearCounting p lc.hash
  let bitsToFold := lcFoldDown lc.bits lc.p (lc.p - p)
  { newLC with bits := bitsToFold.take newLC.bits.length }

theorem word_bit_eq_testBit (x s : Nat) : (x >>> s) &&& 1 = (x.testBit s).toNat := by
  rw [Nat.and_one_is_mod, Nat.testBit_to_div_mod, Nat.shiftRight_eq_div_pow]
  rcases Nat.mod_two_eq_zero_or_one (x / 2 ^ s) with h | h <;> rw [h] <;> rfl

theorem shift_and_one_lor (x y s : Nat) :
    ((x ||| y) >>> s) &&& 1 = (((x >>> s) &&& 1) ||| ((y >>> s) &&& 1)) := by
  rw [word_bit_eq_testBit, word_bit_eq_testBit, word_bit_eq_testBit, Nat.testBit_lor]
  cases x.testBit s <;> cases y.testBit s <;> rfl

theorem lcFoldStepAux_length (bits : BitVector) (mFold c : Nat) :
    (lcFoldStepAux bits mFold c).length = bits.length := by
  induction c with
  | zero => rfl
  | succ c ih => rw [lcFoldStepAux]; rw [List.length_set, ih]

theorem lcFoldStepAux_getD (bits : BitVector) (mFold : Nat)
    (hlen : 2 * mFold ≤ bits.length) :
    ∀ c idx, c ≤ mFold →
      (lcFoldStepAux bits mFold c).getD idx 0
        = if idx < c then bits.getD idx 0 ||| bits.getD (idx + mFold) 0
          else bits.getD idx 0 := by
  intro c
  induction c with
  | zero => intro idx hc; simp [lcFoldStepAux]
  | succ c ih =>
      intro idx hc
      have hc' : c ≤ mFold := by omega
      have e1 : (lcFoldStepAux bits mFold c).getD c 0 = bits.getD c 0 := by
        rw [ih c hc', if_neg (lt_irrefl c)]
      have e2 : (lcFoldStepAux bits mFold c).getD (c + mFold) 0
          = bits.getD (c + mFold) 0 := by
        rw [ih (c + mFold) hc', if_neg (by omega)]
      simp only [lcFoldStepAux]
      rw [BitVector.getD_set_word, e1, e2, lcFoldStepAux_length]
      rcases eq_or_ne c idx with rfl | hne
      · rw [if_pos ⟨rfl, by omega⟩, if_pos (by omega)]
      · rw [if_neg (by simp [hne]), ih idx hc']
        rcases lt_or_ge idx c with hlt | hge
        · rw [if_pos hlt, if_pos (by omega)]
        · rw [if_neg (by omega), if_neg (by omega)]

/-- C8: a single folding step of Compress from precision i to i-1 makes the
bit for bucket b of the folded vector the OR of the bits for buckets b and
b + 2^(i-1) of the unfolded vector, under the declared layout (bit n in word
n >>> 6 at position n &&& 63); and the precision Compress assigns to the new
sketch is clamped so it never goes below 6. -/
theorem linearcounting_compress_fold_step (bits : BitVector) (i b : Nat)
    (hi : 7 ≤ i) (hb : b < 2 ^ (i - 1)) (hlen : 2 ^ (i - 6) ≤ bits.length) :
    ((lcFoldStep bits i).Get b = (bits.Get b ||| bits.Get (b + 2 ^ (i - 1)))
      ∧ ∀ p0 factor, 6 ≤ lcCompressP p0 factor) := by
  constructor
  · have hm : (1 : Nat) <<< (i - 7) = 2 ^ (i - 7) := Nat.one_shiftLeft _
    have hpow : (2 : Nat) ^ (i - 1) = 2 ^ (i - 7) * 64 := by
      have : (64 : Nat) = 2 ^ 6 := by norm_num
      rw [this, ← pow_add]
      congr 1
      omega
    have hword : b >>> 6 < 2 ^ (i - 7) := by
      rw [Nat.shiftRight_eq_div_pow]
      have : (2 : Nat) ^ 6 = 64 := by norm_num
      rw [this]
      exact Nat.div_lt_iff_lt_mul (by norm_num) |>.mpr (by omega)
    have hword2 : (b + 2 ^ (i - 1)) >>> 6 = b >>> 6 + 2 ^ (i - 7) := by
      rw [Nat.shiftRight_eq_div_pow, Nat.shiftRight_eq_div_pow]
      have h6 : (2 : Nat) ^ 6 = 64 := by norm_num
      rw [h6, hpow, Nat.add_mul_div_right _ _ (by norm_num : (0 : Nat) < 64)]
    have hpos2 : (b + 2 ^ (i - 1)) &&& 63 = b &&& 63 := by
      rw [and_63_eq_mod, and_63_eq_mod, hpow]
      omega
    have hlen2 : 2 * (1 <<< (i - 7)) ≤ bits.length := by
      rw [hm]
      calc 2 * 2 ^ (i - 7) = 2 ^ (i - 6) := by
            rw [← pow_succ']
            congr 1
            omega
      _ ≤ bits.length := hlen
    rw [lcFoldStep, BitVector.Get, lcFoldStepAux_getD bits _ hlen2 _ _ le_rfl]
    rw [if_pos (by rw [hm]; exact hword)]
    rw [BitVector.Get, BitVector.Get, hword2, hpos2, hm]
    exact shift_and_one_lor ..
  · intro p0 factor
    rw [lcCompressP]
    simp only [minLinearCountingP]
    split_ifs <;> omega

theorem linearcounting_compress_fold_step_witness :
    (7 ≤ 7 ∧ (3 : Nat) < 2 ^ (7 - 1) ∧ 2 ^ (7 - 6) ≤ List.length [(8 : Nat), 0]) ∧
    (BitVector.Get (lcFoldStep [(8 : Nat), 0] 7) 3
        = (BitVector.Get [(8 : Nat), 0] 3 ||| BitVector.Get [(8 : Nat), 0] (3 + 2 ^ (7 - 1)))
      ∧ ∀ p0 factor, 6 ≤ lcCompressP p0 factor) :=
  ⟨⟨by decide, by decide, by decide⟩,
    linearcounting_compress_fold_step [8, 0] 7 3 (by decide) (by decide) (by decide)⟩

theorem newbitvector_len_pow (q : Nat) (hq : 6 ≤ q) :
    64 * (NewBitVector (1 <<< q)).length = 2 ^ q := by
  rw [NewBitVector, List.length_replicate, Nat.one_shiftLeft, Nat.shiftRight_eq_div_pow]
  have h : 2 ^ q = 64 * 2 ^ (q - 6) := by
    have h6 : (64 : Nat) = 2 ^ 6 := by norm_num
    rw [h6, ← pow_add]
    congr 1
    omega
  have hk : 1 ≤ 2 ^ (q - 6) := Nat.one_le_two_pow
  have h26 : (2 : Nat) ^ 6 = 64 := by norm_num
  rw [h26, h]
  omega

/-- C10: NewLinearCounting never fails on any precision argument: the
precision is silently clamped into [6, 24] (below 6 becomes 6, above 24
becomes 24, in-range p is kept), and the returned sketch carries a bit
vector of 2^p bit positions (2^p / 64 words of 64 bits) for the clamped p. -/
theorem newlinearcounting_total_clamp (p : Nat) (hash : Nat → Nat) :
    6 ≤ (NewLinearCounting p hash).p ∧ (NewLinearCounting p hash).p ≤ 24
  ∧ (p < 6 → (NewLinearCounting p hash).p = 6)
  ∧ (24 < p → (NewLinearCounting p hash).p = 24)
  ∧ (6 ≤ p → p ≤ 24 → (NewLinearCounting p hash).p = p)
  ∧ 64 * (NewLinearCounting p hash).bits.length = 2 ^ (NewLinearCounting p hash).p := by
  have hp : (NewLinearCounting p hash).p
      = if p < minLinearCountingP then minLinearCountingP
        else if p > maxLinearCountingP then maxLinearCountingP else p := rfl
  have hbits : (NewLinearCounting p hash).bits
      = NewBitVector (1 <<< (NewLinearCounting p hash).p) := rfl
  have hq6 : 6 ≤ (NewLinearCounting p hash).p ∧ (NewLinearCounting p hash).p ≤ 24 := by
    rw [hp]
    simp only [minLinearCountingP, maxLinearCountingP]
    split_ifs <;> omega
  refine ⟨hq6.1, hq6.2, ?_, ?_, ?_, ?_⟩
  · intro h
    rw [hp]
    simp only [minLinearCountingP, maxLinearCountingP]
    rw [if_pos h]
  · intro h
    rw [hp]
    simp only [minLinearCountingP, maxLinearCountingP]
    rw [if_neg (by omega), if_pos h]
  · intro h1 h2
    rw [hp]
    simp only [minLinearCountingP, maxLinearCountingP]
    rw [if_neg (by omega), if_neg (by omega)]
  · rw [hbits]
    exact newbitvector_len_pow _ hq6.1

theorem newlinearcounting_total_clamp_witness :
    ((3 : Nat) < 6)
  ∧ (NewLinearCounting 3 (fun _ => 0)).p = 6
  ∧ 64 * (NewLinearCounting 3 (fun _ => 0)).bits.length
      = 2 ^ (NewLinearCounting 3 (fun _ => 0)).p :=
  ⟨by decide, (newlinearcounting_total_clamp 3 (fun _ => 0)).2.2.1 (by decide),
    (newlinearcounting_total_clamp 3 (fun _ => 0)).2.2.2.2.2⟩

/-! ## LinearCounting Distinct (claim C6) -/

theorem log_le_log_of_le {x y : ℝ} (hx : 0 < x) (h : x ≤ y) :
    Real.log x ≤ Real.log y :=
  Real.log_le_log hx h

theorem log_64_gt_one : (1 : ℝ) < Real.log 64 := by
  have h2 : (0.6931471803 : ℝ) < Real.log 2 := Real.log_two_gt_d9
  have h64 : Real.log (64 : ℝ) = 6 * Real.log 2 := by
    have h : (64 : ℝ) = 2 ^ 6 := by norm_num
    rw [h, Real.log_pow]
    norm_num
  nlinarith

/-- C6 (amended): for every LinearCounting whose precision is in the range
NewLinearCounting establishes, Distinct() is bounded by m ln m (truncated),
and it returns exactly m when the bit vector is saturated (z = 0).  The
original bound m does not hold; see the counterexample. -/
theorem linearcounting_distinct_bound (lc : LinearCounting) (hp : 6 ≤ lc.p) :
    lc.Distinct ≤ (⌊((1 <<< lc.p : Nat) : ℝ) * Real.log ((1 <<< lc.p : Nat) : ℝ)⌋).toNat
  ∧ ((1 <<< lc.p : Nat) - lc.bits.PopCount = 0 → lc.Distinct = 1 <<< lc.p) := by
  have hm64 : (64 : Nat) ≤ 1 <<< lc.p := by
    rw [Nat.one_shiftLeft]
    calc (64 : Nat) = 2 ^ 6 := by norm_num
    _ ≤ 2 ^ lc.p := Nat.pow_le_pow_right (by norm_num) hp
  have hmR : (64 : ℝ) ≤ ((1 <<< lc.p : Nat) : ℝ) := by exact_mod_cast hm64
  have hmpos : (0 : ℝ) < ((1 <<< lc.p : Nat) : ℝ) := by linarith
  have hlog1 : (1 : ℝ) < Real.log ((1 <<< lc.p : Nat) : ℝ) := by
    calc (1 : ℝ) < Real.log 64 := log_64_gt_one
    _ ≤ Real.log ((1 <<< lc.p : Nat) : ℝ) := log_le_log_of_le (by norm_num) hmR
  constructor
  · simp only [LinearCounting.Distinct]
    split
    · next hzc =>
        apply Int.toNat_le_toNat
        apply Int.floor_le_floor
        have hz1 : (1 : ℝ) ≤ (((1 <<< lc.p : Nat) - lc.bits.PopCount : Nat) : ℝ) := by
          exact_mod_cast hzc
        have hdiv : ((1 <<< lc.p : Nat) : ℝ) / (((1 <<< lc.p : Nat) - lc.bits.PopCount : Nat) : ℝ)
            ≤ ((1 <<< lc.p : Nat) : ℝ) := div_le_self (by linarith) hz1
        have hdivpos : (0 : ℝ) < ((1 <<< lc.p : Nat) : ℝ)
            / (((1 <<< lc.p : Nat) - lc.bits.PopCount : Nat) : ℝ) := by positivity
        have := log_le_log_of_le hdivpos hdiv
        nlinarith
    · next hzc =>
        have hfloor : ((1 <<< lc.p : Nat) : ℤ)
            ≤ ⌊((1 <<< lc.p : Nat) : ℝ) * Real.log ((1 <<< lc.p : Nat) : ℝ)⌋ := by
          rw [Int.le_floor]
          push_cast
          nlinarith
        omega
  · intro hzc
    simp only [LinearCounting.Distinct]
    rw [if_neg (by omega)]

theorem linearcounting_distinct_bound_witness :
    (6 ≤ (NewLinearCounting 6 (fun i => i <<< 58)).p)
  ∧ ((NewLinearCounting 6 (fun i => i <<< 58)).Distinct
      ≤ (⌊((1 <<< (NewLinearCounting 6 (fun i => i <<< 58)).p : Nat) : ℝ)
          * Real.log ((1 <<< (NewLinearCounting 6 (fun i => i <<< 58)).p : Nat) : ℝ)⌋).toNat) :=
  ⟨by decide, (linearcounting_distinct_bound (NewLinearCounting 6 (fun i => i <<< 58)) (by decide)).1⟩

/-- A reachable LinearCounting (precision 6, 63 of the 64 buckets occupied):
the hash sends item i to i <<< 58, so item i lands in bucket i, and items
1..63 fill every bucket except bucket 0. -/
def lcNearFull : LinearCounting :=
  ((List.range 63).map (fun i => i + 1)).foldl LinearCounting.Add
    (NewLinearCounting 6 (fun i => i <<< 58))

/-- C6 counterexample: the claim says Distinct() is at most m = 2^p, but the
reachable sketch lcNearFull (m = 64, one empty bucket) returns
floor(64 ln 64) = 266 > 64. -/
theorem linearcounting_distinct_counterexample :
    1 <<< lcNearFull.p < lcNearFull.Distinct := by
  have hp : lcNearFull.p = 6 := by decide
  have hpc : lcNearFull.bits.PopCount = 63 := by decide
  simp only [LinearCounting.Distinct, hp, hpc]
  have hsh : (1 : Nat) <<< 6 = 64 := by decide
  rw [hsh]
  norm_num
  have h2 : (0.6931471803 : ℝ) < Real.log 2 := Real.log_two_gt_d9
  have h64 : Real.log (64 : ℝ) = 6 * Real.log 2 := by
    have h : (64 : ℝ) = 2 ^ 6 := by norm_num
    rw [h, Real.log_pow]
    norm_num
  have hle : (65 : ℝ) ≤ 64 * Real.log 64 := by nlinarith
  have hf : (65 : ℤ) ≤ ⌊(64 : ℝ) * Real.log 64⌋ := by
    rw [Int.le_floor]
    exact_mod_cast hle
  omega

/-! ## HyperLogLog (hyperloglog.go) -/

def minimumHyperLogLogP : Nat := 4

def maximumHyperLogLogP : Nat := 16

structure HyperLogLog where
  hash : Nat → Nat
  alpha : Rat
  p : Nat
  data : List Nat

def NewHyperLogLog (p : Nat) (hash : Nat → Nat) : HyperLogLog :=
  let p := if p < minimumHyperLogLogP then minimumHyperLogLogP
           else if p > maximumHyperLogLogP then maximumHyperLogLogP else p
  let m : Nat := 1 <<< p
  let alpha : Rat :=
    if m = 16 then 0.673
    else if m = 32 then 0.697
    else if m = 64 then 0.709
    else 0.7213 / (1 + 1.079 / (m : Rat))
  ⟨hash, alpha, p, List.replicate m 0⟩

/-- The trailing-zero scan of Add: trailingZeroCount starts at 1 and the loop
runs at most 64 - p times; an iteration stops when the current low bit of the
hash is 1, and otherwise sets the count to k + 1 and shifts the hash right.
The last argument is the remaining number of allowed iterations. -/
def hllRank : Nat → Nat → Nat → Nat
  | _, tzc, 0 => tzc
  | h, tzc, fuel + 1 => if h &&& 1 = 1 then tzc else hllRank (h >>> 1) (tzc + 1) fuel

def HyperLogLog.Add (hll : HyperLogLog) (item : Nat) : HyperLogLog :=
  let hash := hll.hash item
  let bucket := hash >>> (64 - hll.p)
  let trailingZeroCount := hllRank hash 1 (64 - hll.p)
  if trailingZeroCount > hll.data.getD bucket 0 then
    { hll with data := hll.data.set bucket trailingZeroCount }
  else hll

theorem hllRank_spec (fuel : Nat) : ∀ h tzc,
    tzc ≤ hllRank h tzc fuel
  ∧ hllRank h tzc fuel ≤ tzc + fuel
  ∧ (∀ j, tzc + j < hllRank h tzc fuel → h.testBit j = false)
  ∧ (hllRank h tzc fuel < tzc + fuel → h.testBit (hllRank h tzc fuel - tzc) = true) := by
  induction fuel with
  | zero =>
      intro h tzc
      have he : hllRank h tzc 0 = tzc := rfl
      rw [he]
      refine ⟨le_rfl, by omega, ?_, by omega⟩
      intro j hj
      omega
  | succ fuel ih =>
      intro h tzc
      rw [hllRank]
      split
      · next hbit =>
          refine ⟨le_rfl, by omega, ?_, ?_⟩
          · intro j hj
            omega
          · intro _
            have h0 : h.testBit 0 = true := by
              rw [Nat.testBit_to_div_mod]
              simp only [pow_zero, Nat.div_one]
              rw [Nat.and_one_is_mod] at hbit
              simp [hbit]
            simpa using h0
      · next hbit =>
          obtain ⟨ih1, ih2, ih3, ih4⟩ := ih (h >>> 1) (tzc + 1)
          have hbit0 : h.testBit 0 = false := by
            rw [Nat.testBit_to_div_mod]
            simp only [pow_zero, Nat.div_one]
            rw [Nat.and_one_is_mod] at hbit
            rcases Nat.mod_two_eq_zero_or_one h with h2 | h2
            · simp [h2]
            · exact absurd h2 hbit
          refine ⟨by omega, by omega, ?_, ?_⟩
          · intro j hj
            cases j with
            | zero => exact hbit0
            | succ j =>
                have hj := ih3 j (by omega)
                rw [Nat.testBit_shiftRight, Nat.add_comm 1 j] at hj
                exact hj
          · intro hlt
            have hge := ih1
            have := ih4 (by omega)
            rw [Nat.testBit_shiftRight] at this
            have harith : 1 + (hllRank (h >>> 1) (tzc + 1) fuel - (tzc + 1))
                = hllRank (h >>> 1) (tzc + 1) fuel - tzc := by omega
            rw [harith] at this
            exact this

theorem hllAdd_p (s : HyperLogLog) (item : Nat) : (s.Add item).p = s.p := by
  rw [HyperLogLog.Add]
  split <;> rfl

theorem hllAdd_register_le (s : HyperLogLog) (item : Nat)
    (hinv : ∀ i, s.data.getD i 0 ≤ 64 - s.p + 1) :
    ∀ i, (s.Add item).data.getD i 0 ≤ 64 - (s.Add item).p + 1 := by
  intro i
  rw [hllAdd_p]
  rw [HyperLogLog.Add]
  split
  · next hup =>
      simp only
      rw [BitVector.getD_set_word]
      split
      · have hr := (hllRank_spec (64 - s.p) (s.hash item) 1).2.1
        omega
      · exact hinv i
  · exact hinv i

theorem newhll_register_zero (p0 : Nat) (hash : Nat → Nat) (i : Nat) :
    (NewHyperLogLog p0 hash).data.getD i 0 = 0 := by
  have hdata : (NewHyperLogLog p0 hash).data
      = List.replicate (1 <<< (NewHyperLogLog p0 hash).p) 0 := rfl
  rw [hdata, List.getD_eq_getElem?_getD, List.getElem?_replicate]
  split <;> rfl

/-- C3 (amended): after any sequence of Adds every register lies in
[0, 64 - p + 1], and the rank Add writes is the 1-based position of the
lowest one-bit of the hash, clamped to 64 - p + 1 (not 64 - p as claimed:
the loop bound k <= 64 - p lets trailingZeroCount reach 64 - p + 1).
The rank r = hllRank h 1 (64 - p) satisfies: 1 <= r <= 64 - p + 1, every
hash bit strictly below position r - 1 is zero, and if r is not clamped
(r < 64 - p + 1) then hash bit r - 1 is one. -/
theorem hll_fold_register_le (items : List Nat) : ∀ (s : HyperLogLog),
    (∀ i, s.data.getD i 0 ≤ 64 - s.p + 1) →
    ∀ i, (items.foldl HyperLogLog.Add s).data.getD i 0
      ≤ 64 - (items.foldl HyperLogLog.Add s).p + 1 := by
  induction items with
  | nil => intro s hs i; exact hs i
  | cons x xs ih =>
      intro s hs i
      rw [List.foldl_cons]
      exact ih (s.Add x) (hllAdd_register_le s x hs) i

theorem hll_fold_p (items : List Nat) : ∀ s : HyperLogLog,
    (items.foldl HyperLogLog.Add s).p = s.p := by
  induction items with
  | nil => intro s; rfl
  | cons x xs ih =>
      intro s
      rw [List.foldl_cons, ih (s.Add x), hllAdd_p]

/-- C3 (amended): after any sequence of Adds every register lies in
[0, 64 - p + 1], and the rank Add writes is the 1-based position of the
lowest one-bit of the hash, clamped to 64 - p + 1 (not 64 - p as claimed:
the loop bound k <= 64 - p lets trailingZeroCount reach 64 - p + 1).
The rank r = hllRank h 1 (64 - p) satisfies: 1 <= r <= 64 - p + 1, every
hash bit strictly below position r - 1 is zero, and if r is not clamped
(r < 64 - p + 1) then hash bit r - 1 is one. -/
theorem hll_register_bound_amended (p0 : Nat) (hash : Nat → Nat) (items : List Nat) :
    (∀ i, (items.foldl HyperLogLog.Add (NewHyperLogLog p0 hash)).data.getD i 0
        ≤ 64 - (NewHyperLogLog p0 hash).p + 1)
  ∧ (∀ h, 1 ≤ hllRank h 1 (64 - (NewHyperLogLog p0 hash).p)
      ∧ hllRank h 1 (64 - (NewHyperLogLog p0 hash).p) ≤ 64 - (NewHyperLogLog p0 hash).p + 1
      ∧ (∀ j, 1 + j < hllRank h 1 (64 - (NewHyperLogLog p0 hash).p) → h.testBit j = false)
      ∧ (hllRank h 1 (64 - (NewHyperLogLog p0 hash).p) < 1 + (64 - (NewHyperLogLog p0 hash).p)
          → h.testBit (hllRank h 1 (64 - (NewHyperLogLog p0 hash).p) - 1) = true)) := by
  constructor
  · intro i
    have := hll_fold_register_le items (NewHyperLogLog p0 hash)
      (fun i => by rw [newhll_register_zero]; omega) i
    rwa [hll_fold_p] at this
  · intro h
    obtain ⟨h1, h2, h3, h4⟩ := hllRank_spec (64 - (NewHyperLogLog p0 hash).p) h 1
    exact ⟨h1, by omega, h3, fun hl => h4 (by omega)⟩

theorem hll_register_bound_amended_witness :
    (([(0 : Nat)]).foldl HyperLogLog.Add (NewHyperLogLog 4 (fun _ => 0))).data.getD 0 0
      ≤ 64 - (NewHyperLogLog 4 (fun _ => 0)).p + 1 :=
  (hll_register_bound_amended 4 (fun _ => 0) [0]).1 0

/-- C3 counterexample: with p = 4 and a hash value of 0 (all 64 bits zero),
a single Add writes 61 = 64 - p + 1 into register 0, violating the claimed
bound data[i] <= 64 - p = 60. -/
theorem hll_register_bound_counterexample :
    ((NewHyperLogLog 4 (fun _ => 0)).Add 0).data.getD 0 0 = 61
  ∧ ¬(((NewHyperLogLog 4 (fun _ => 0)).Add 0).data.getD 0 0
        ≤ 64 - ((NewHyperLogLog 4 (fun _ => 0)).Add 0).p) := by
  constructor
  · decide
  · decide

/-- C9: Add modifies at most the register indexed by the top p bits of the
item hash; p, alpha and every other register are unchanged, no register ever
decreases, and adding the same item a second time leaves the sketch
unchanged. -/
theorem hll_add_frame (s : HyperLogLog) (item i : Nat)
    (hi : i ≠ (s.hash item) >>> (64 - s.p)) :
    (s.Add item).p = s.p
  ∧ (s.Add item).alpha = s.alpha
  ∧ (s.Add item).data.getD i 0 = s.data.getD i 0
  ∧ (∀ j, s.data.getD j 0 ≤ (s.Add item).data.getD j 0)
  ∧ (s.Add item).Add item = s.Add item := by
  obtain ⟨hash, alpha, p, data⟩ := s
  simp only at hi
  refine ⟨hllAdd_p _ _, ?_, ?_, ?_, ?_⟩
  · simp only [HyperLogLog.Add]
    split <;> rfl
  · simp only [HyperLogLog.Add]
    split
    · simp only
      rw [BitVector.getD_set_word, if_neg (by
        rintro ⟨heq, -⟩
        exact hi heq.symm)]
    · rfl
  · intro j
    simp only [HyperLogLog.Add]
    split
    · next hup =>
        simp only
        rw [BitVector.getD_set_word]
        split
        · next hc =>
            obtain ⟨hb, -⟩ := hc
            rw [hb] at hup
            omega
        · exact le_rfl
    · exact le_rfl
  · rcases le_or_lt (hllRank (hash item) 1 (64 - p))
        (data.getD (hash item >>> (64 - p)) 0) with hle | hgt
    · have h1 : HyperLogLog.Add ⟨hash, alpha, p, data⟩ item = ⟨hash, alpha, p, data⟩ := by
        simp only [HyperLogLog.Add]
        rw [if_neg (by omega)]
      rw [h1, h1]
    · have h1 : HyperLogLog.Add ⟨hash, alpha, p, data⟩ item
          = ⟨hash, alpha, p,
              data.set (hash item >>> (64 - p)) (hllRank (hash item) 1 (64 - p))⟩ := by
        simp only [HyperLogLog.Add]
        rw [if_pos (by omega)]
      rcases lt_or_ge (hash item >>> (64 - p)) data.length with hblt | hbge
      · have h2 : (data.set (hash item >>> (64 - p)) (hllRank (hash item) 1 (64 - p))).getD
            (hash item >>> (64 - p)) 0 = hllRank (hash item) 1 (64 - p) := by
          rw [BitVector.getD_set_word, if_pos ⟨rfl, hblt⟩]
        rw [h1]
        simp only [HyperLogLog.Add]
        rw [if_neg (by rw [h2]; omega)]
      · have hset : data.set (hash item >>> (64 - p)) (hllRank (hash item) 1 (64 - p))
            = data := List.set_eq_of_length_le (by omega)
        rw [h1, hset, h1, hset]

theorem hll_add_frame_witness :
    ((3 : Nat) ≠ ((NewHyperLogLog 4 (fun n => n <<< 60)).hash 5)
        >>> (64 - (NewHyperLogLog 4 (fun n => n <<< 60)).p))
  ∧ ((NewHyperLogLog 4 (fun n => n <<< 60)).Add 5).data.getD 3 0
      = (NewHyperLogLog 4 (fun n => n <<< 60)).data.getD 3 0 :=
  ⟨by decide,
    (hll_add_frame (NewHyperLogLog 4 (fun n => n <<< 60)) 5 3 (by decide)).2.2.1⟩

/-! ## HyperLogLog Distinct (claim C4)

The float64 transcendental functions math.Exp and math.Log are modelled as
abstract functions over the exact rationals; the claim compares the branch
structure and the formulas of Distinct with the ones of the spec, which is
insensitive to the concrete values of exp and log. -/

/-- The inversePowersOfTwo table of hyperloglog.go: entry d holds 2^(-d).
The table has 64 entries and every reachable register value is at most 61,
so the total function below agrees with the table wherever the code reads
it. -/
def inversePowersOfTwo (d : Nat) : Rat := (1 / 2) ^ d

/-- Conversion uint64(x) of a nonnegative float64, i.e. truncation. -/
def truncUInt (x : Rat) : Nat := (⌊x⌋).toNat

/-- The single loop of Distinct accumulating sum and zeroCount. -/
def hllSumZero (data : List Nat) : Rat × Nat :=
  data.foldl (fun acc d => (acc.1 + inversePowersOfTwo d,
    if d = 0 then acc.2 + 1 else acc.2)) (0, 0)

def HyperLogLog.Distinct (hll : HyperLogLog) (log exp : Rat → Rat) : Nat :=
  let alpha := hll.alpha
  let m : Rat := ((1 <<< hll.p : Nat) : Rat)
  let C := alpha * m
  let sz := hllSumZero hll.data
  let rawEstimate := alpha * m * m / sz.1
  let t := (rawEstimate - C) / C
  if t < 1 ∧ 0 < sz.2 then truncUInt (m * log (m / (sz.2 : Rat)))
  else if t < 12 then
    truncUInt (rawEstimate - C * (exp (-t) + 0.125 * t * (t - 0.82) * exp (-1.85 * t)))
  else truncUInt rawEstimate

/-- The selection rule in the words of the spec: E, C, t, z and the three
regimes. -/
def HyperLogLog.DistinctSpec (hll : HyperLogLog) (log exp : Rat → Rat) : Nat :=
  let m : Rat := ((2 ^ hll.p : Nat) : Rat)
  let E := hll.alpha * m ^ 2 / (hll.data.map (fun d => ((2 : Rat) ^ d)⁻¹)).sum
  let C := hll.alpha * m
  let t := (E - C) / C
  let z := (hll.data.filter (fun d => d = 0)).length
  if t < 1 ∧ 0 < z then truncUInt (m * log (m / (z : Rat)))
  else if t < 12 then
    truncUInt (E - C * (exp (-t) + 0.125 * t * (t - 0.82) * exp (-1.85 * t)))
  else truncUInt E

theorem hllSumZero_go (data : List Nat) : ∀ (a : Rat) (z : Nat),
    data.foldl (fun acc d => (acc.1 + inversePowersOfTwo d,
        if d = 0 then acc.2 + 1 else acc.2)) (a, z)
      = (a + (data.map (fun d => ((2 : Rat) ^ d)⁻¹)).sum,
         z + (data.filter (fun d => d = 0)).length) := by
  induction data with
  | nil => intro a z; simp
  | cons d ds ih =>
      intro a z
      rw [List.foldl_cons]
      simp only
      rw [ih]
      have hinv : inversePowersOfTwo d = ((2 : Rat) ^ d)⁻¹ := by
        rw [inversePowersOfTwo, one_div, inv_pow]
      rw [List.map_cons, List.sum_cons, hinv]
      rcases eq_or_ne d 0 with rfl | hd
      · rw [List.filter_cons_of_pos (by simp), if_pos rfl]
        simp only [List.length_cons, Prod.mk.injEq]
        exact ⟨by ring, by omega⟩
      · rw [List.filter_cons_of_neg (by simp [hd]), if_neg hd]
        simp only [Prod.mk.injEq]
        exact ⟨by ring, trivial⟩

theorem hllSumZero_eq (data : List Nat) :
    hllSumZero data = ((data.map (fun d => ((2 : Rat) ^ d)⁻¹)).sum,
      (data.filter (fun d => d = 0)).length) := by
  rw [hllSumZero, hllSumZero_go]
  simp

/-- C4: Distinct selects among the three estimators exactly as the spec
says: with E, C, t and z as specified, the linear-counting estimate when
t < 1 and z > 0, the bias-corrected estimate when t < 12, and otherwise the
raw estimate, each truncated to an integer; this holds for every register
state and every (abstract) exp and log. -/
theorem hll_distinct_eq_spec (hll : HyperLogLog) (log exp : Rat → Rat) :
    hll.Distinct log exp = hll.DistinctSpec log exp := by
  simp only [HyperLogLog.Distinct, HyperLogLog.DistinctSpec, hllSumZero_eq]
  have hm : ((1 <<< hll.p : Nat) : Rat) = ((2 ^ hll.p : Nat) : Rat) := by
    rw [Nat.one_shiftLeft]
  rw [hm]
  have hE : hll.alpha * ((2 ^ hll.p : Nat) : Rat) * ((2 ^ hll.p : Nat) : Rat)
      = hll.alpha * ((2 ^ hll.p : Nat) : Rat) ^ 2 := by ring
  rw [hE]

/-! ## BloomFilter sizing (claim C7)

NewBloomFilter computes m and k with float64 arithmetic and math.Log;
modelled over the reals. -/

def nextPowerOfTwo (x : Nat) : Nat :=
  if x = 0 then 1
  else
    let x := x - 1
    let x := x ||| (x >>> 1)
    let x := x ||| (x >>> 2)
    let x := x ||| (x >>> 4)
    let x := x ||| (x >>> 8)
    let x := x ||| (x >>> 16)
    let x := x ||| (x >>> 32)
    x + 1

noncomputable def bloomOptM (Nitems : Nat) (f : ℝ) : Nat :=
  (⌊-(Nitems : ℝ) * Real.log f / (Real.log 2 * Real.log 2)⌋).toNat

noncomputable def bloomM (Nitems : Nat) (f : ℝ) : Nat :=
  if bloomOptM Nitems f > 1 <<< 32 then 1 <<< 32
  else nextPowerOfTwo (bloomOptM Nitems f)

noncomputable def bloomK (Nitems : Nat) (f : ℝ) : Nat :=
  (⌊(bloomM Nitems f : ℝ) * Real.log 2 / (Nitems : ℝ) + 0.5⌋).toNat

noncomputable def NewBloomFilter (Nitems : Nat) (f : ℝ) (hash : Nat → Nat) : BloomFilter :=
  ⟨hash, NewBitVector (bloomM Nitems f), bloomK Nitems f, bloomM Nitems f⟩

/-- The m of the claim, in the words of the spec: the next power of two
greater than or equal to the CEILING of n ln(1/f) / (ln 2)^2, capped at
2^32. -/
noncomputable def bloomMSpec (Nitems : Nat) (f : ℝ) : Nat :=
  min (nextPowerOfTwo ((⌈(Nitems : ℝ) * Real.log (1 / f) / (Real.log 2) ^ 2⌉).toNat))
    (1 <<< 32)

theorem log2_sq_pos : (0 : ℝ) < Real.log 2 * Real.log 2 := by
  have h := Real.log_two_gt_d9
  nlinarith

/-- C7 counterexample: at n = 100, f = 0.99 the code computes
optM = floor(2.08...) = 2, so m = nextPowerOfTwo(2) = 2 and
k = uint64(2 ln2/100 + 0.5) = 0, while the claim demands
m = nextPowerOfTwo(ceil(2.08...)) = 4 and k at least 1. -/
theorem newbloomfilter_sizing_counterexample :
    (NewBloomFilter 100 0.99 (fun i => i)).m = 2
  ∧ (NewBloomFilter 100 0.99 (fun i => i)).k = 0
  ∧ bloomMSpec 100 0.99 = 4 := by
  have hlogf : Real.log (0.99 : ℝ) = -Real.log (100 / 99 : ℝ) := by
    rw [show (0.99 : ℝ) = ((100 / 99 : ℝ))⁻¹ by norm_num, Real.log_inv]
  have hub : Real.log (100 / 99 : ℝ) ≤ 1 / 99 := by
    have := Real.log_le_sub_one_of_pos (show (0 : ℝ) < 100 / 99 by norm_num)
    linarith
  have hlb : (1 / 100 : ℝ) ≤ Real.log (100 / 99 : ℝ) := by
    have h1 := Real.log_le_sub_one_of_pos (show (0 : ℝ) < 99 / 100 by norm_num)
    have h2 : Real.log (99 / 100 : ℝ) = -Real.log (100 / 99 : ℝ) := by
      rw [show (99 / 100 : ℝ) = ((100 / 99 : ℝ))⁻¹ by norm_num, Real.log_inv]
    rw [h2] at h1
    linarith
  have l2lb := Real.log_two_gt_d9
  have l2ub := Real.log_two_lt_d9
  have hvform : -(100 : ℝ) * Real.log (0.99 : ℝ) / (Real.log 2 * Real.log 2)
      = 100 * Real.log (100 / 99 : ℝ) / (Real.log 2 * Real.log 2) := by
    rw [hlogf]
    ring
  have hv2 : (2 : ℝ) ≤ 100 * Real.log (100 / 99 : ℝ) / (Real.log 2 * Real.log 2) := by
    rw [le_div_iff log2_sq_pos]
    nlinarith
  have hv3 : 100 * Real.log (100 / 99 : ℝ) / (Real.log 2 * Real.log 2) < 3 := by
    rw [div_lt_iff log2_sq_pos]
    nlinarith
  have hopt : bloomOptM 100 0.99 = 2 := by
    rw [bloomOptM]
    push_cast
    rw [hvform]
    have hfl : (2 : ℤ) ≤ ⌊(100 : ℝ) * Real.log (100 / 99 : ℝ) / (Real.log 2 * Real.log 2)⌋ :=
      Int.le_floor.mpr (by exact_mod_cast hv2)
    have hfu : ⌊(100 : ℝ) * Real.log (100 / 99 : ℝ) / (Real.log 2 * Real.log 2)⌋ < 3 :=
      Int.floor_lt.mpr (by exact_mod_cast hv3)
    omega
  have hm : bloomM 100 0.99 = 2 := by
    rw [bloomM, hopt]
    rw [if_neg (by decide)]
    decide
  refine ⟨hm, ?_, ?_⟩
  · show bloomK 100 0.99 = 0
    rw [bloomK, hm]
    have hw0 : (0 : ℝ) ≤ (2 : ℝ) * Real.log 2 / (100 : ℝ) + 0.5 := by
      have : (0 : ℝ) < Real.log 2 := by linarith
      positivity
    have hw1 : (2 : ℝ) * Real.log 2 / (100 : ℝ) + 0.5 < 1 := by
      rw [div_add' _ _ _ (by norm_num : (100 : ℝ) ≠ 0), div_lt_iff (by norm_num : (0 : ℝ) < 100)]
      nlinarith
    have h0 : (0 : ℤ) ≤ ⌊(((2 : Nat) : ℝ)) * Real.log 2 / ((100 : Nat) : ℝ) + 0.5⌋ := by
      apply Int.le_floor.mpr
      push_cast
      exact_mod_cast hw0
    have h1 : ⌊(((2 : Nat) : ℝ)) * Real.log 2 / ((100 : Nat) : ℝ) + 0.5⌋ < 1 := by
      apply Int.floor_lt.mpr
      push_cast
      exact_mod_cast hw1
    omega
  · rw [bloomMSpec]
    have hvform2 : (100 : ℝ) * Real.log (1 / (0.99 : ℝ)) / (Real.log 2) ^ 2
        = 100 * Real.log (100 / 99 : ℝ) / (Real.log 2 * Real.log 2) := by
      rw [show (1 / (0.99 : ℝ)) = (100 / 99 : ℝ) by norm_num]
      ring
    push_cast
    rw [hvform2]
    have hv2s : (2 : ℝ) < 100 * Real.log (100 / 99 : ℝ) / (Real.log 2 * Real.log 2) := by
      rw [lt_div_iff log2_sq_pos]
      nlinarith
    have hceil : ⌈(100 : ℝ) * Real.log (100 / 99 : ℝ) / (Real.log 2 * Real.log 2)⌉ = 3 := by
      rw [Int.ceil_eq_iff]
      constructor
      · push_cast
        linarith
      · push_cast
        linarith
    rw [hceil]
    decide

set_option maxRecDepth 20000 in
theorem nextPowerOfTwo_512_1024 : ∀ x : Nat, x < 1025 → 512 < x → nextPowerOfTwo x = 1024 := by
  decide

/-- C7 (amended): NewBloomFilter sets m to the next power of two greater than
or equal to the FLOOR (uint64 truncation, not the ceiling) of
n ln(1/f)/(ln 2)^2, capped at 2^32, and k to round(m ln2/n) with no lower
bound (k can be 0).  In particular n = 107, f = 0.0101 still yields m = 1024
and k = 7. -/
theorem newbloomfilter_sizing_amended (hash : Nat → Nat) :
    (NewBloomFilter 107 0.0101 hash).m = 1024
  ∧ (NewBloomFilter 107 0.0101 hash).k = 7 := by
  have l2lb := Real.log_two_gt_d9
  have l2ub := Real.log_two_lt_d9
  have hlogf : Real.log (0.0101 : ℝ) = -Real.log (10000 / 101 : ℝ) := by
    rw [show (0.0101 : ℝ) = ((10000 / 101 : ℝ))⁻¹ by norm_num, Real.log_inv]
  have hsplit : Real.log (10000 / 101 : ℝ) = 6 * Real.log 2 + Real.log (625 / 404 : ℝ) := by
    rw [show (10000 / 101 : ℝ) = 2 ^ 6 * (625 / 404) by norm_num,
      Real.log_mul (by norm_num) (by norm_num), Real.log_pow]
    norm_num
  have hSlb : (0 : ℝ) ≤ Real.log (625 / 404 : ℝ) := Real.log_nonneg (by norm_num)
  have hSub : Real.log (625 / 404 : ℝ) ≤ 0.44256 := by
    have hmono : Real.log (625 / 404 : ℝ) ≤ Real.log ((51383 / 50000 : ℝ) ^ 16) :=
      Real.log_le_log (by norm_num) (by norm_num)
    rw [Real.log_pow] at hmono
    have hla : Real.log (51383 / 50000 : ℝ) ≤ 51383 / 50000 - 1 :=
      Real.log_le_sub_one_of_pos (by norm_num)
    push_cast at hmono
    nlinarith
  have hvform : -(107 : ℝ) * Real.log (0.0101 : ℝ) / (Real.log 2 * Real.log 2)
      = 107 * Real.log (10000 / 101 : ℝ) / (Real.log 2 * Real.log 2) := by
    rw [hlogf]
    ring
  have hv513 : (513 : ℝ) ≤ 107 * Real.log (10000 / 101 : ℝ) / (Real.log 2 * Real.log 2) := by
    rw [le_div_iff₀ log2_sq_pos, hsplit]
    nlinarith
  have hv1025 : 107 * Real.log (10000 / 101 : ℝ) / (Real.log 2 * Real.log 2) < 1025 := by
    rw [div_lt_iff₀ log2_sq_pos, hsplit]
    nlinarith [sq_nonneg (Real.log 2 - 0.6931471803)]
  have hopt : 512 < bloomOptM 107 0.0101 ∧ bloomOptM 107 0.0101 < 1025 := by
    rw [bloomOptM]
    push_cast
    rw [hvform]
    have hfl : (513 : ℤ) ≤ ⌊(107 : ℝ) * Real.log (10000 / 101 : ℝ) / (Real.log 2 * Real.log 2)⌋ :=
      Int.le_floor.mpr (by exact_mod_cast hv513)
    have hfu : ⌊(107 : ℝ) * Real.log (10000 / 101 : ℝ) / (Real.log 2 * Real.log 2)⌋ < 1025 :=
      Int.floor_lt.mpr (by exact_mod_cast hv1025)
    omega
  have hm : bloomM 107 0.0101 = 1024 := by
    rw [bloomM]
    have h32 : (1 : Nat) <<< 32 = 4294967296 := by decide
    rw [if_neg (by omega)]
    exact nextPowerOfTwo_512_1024 _ (by omega) (by omega)
  refine ⟨hm, ?_⟩
  show bloomK 107 0.0101 = 7
  rw [bloomK, hm]
  have hw7 : (7 : ℝ) ≤ (1024 : ℝ) * Real.log 2 / (107 : ℝ) + 0.5 := by
    rw [show (7 : ℝ) = 6.5 + 0.5 by norm_num]
    have : (6.5 : ℝ) ≤ 1024 * Real.log 2 / 107 := by
      rw [le_div_iff₀ (by norm_num : (0 : ℝ) < 107)]
      nlinarith
    linarith
  have hw8 : (1024 : ℝ) * Real.log 2 / (107 : ℝ) + 0.5 < 8 := by
    have : (1024 : ℝ) * Real.log 2 / 107 < 7.5 := by
      rw [div_lt_iff₀ (by norm_num : (0 : ℝ) < 107)]
      nlinarith
    linarith
  have h7 : (7 : ℤ) ≤ ⌊((1024 : Nat) : ℝ) * Real.log 2 / ((107 : Nat) : ℝ) + 0.5⌋ := by
    apply Int.le_floor.mpr
    push_cast
    exact_mod_cast hw7
  have h8 : ⌊((1024 : Nat) : ℝ) * Real.log 2 / ((107 : Nat) : ℝ) + 0.5⌋ < 8 := by
    apply Int.floor_lt.mpr
    push_cast
    exact_mod_cast hw8
  omega

/-! ## P2Quantile (unnamed p2quantile source file) -/

structure P2Quantile where
  p : Rat
  n0 : Nat
  n1 : Nat
  n2 : Nat
  n3 : Nat
  n4 : Nat
  np0 : Rat
  np1 : Rat
  np2 : Rat
  np3 : Rat
  np4 : Rat
  dnp0 : Rat
  dnp1 : Rat
  dnp2 : Rat
  dnp3 : Rat
  dnp4 : Rat
  q0 : Rat
  q1 : Rat
  q2 : Rat
  q3 : Rat
  q4 : Rat
deriving DecidableEq

def NewP2Quantile (p : Rat) : P2Quantile :=
  { p := p
    n0 := 1, n1 := 2, n2 := 3, n3 := 4, n4 := 0
    np0 := 1, np1 := 1 + 2 * p, np2 := 1 + 4 * p, np3 := 3 + 2 * p, np4 := 5
    dnp0 := 0, dnp1 := p / 2, dnp2 := p, dnp3 := (1 + p) / 2, dnp4 := 1
    q0 := 0, q1 := 0, q2 := 0, q3 := 0, q4 := 0 }

/-- The initialization branch of Push (n4 < 5): place x at position n4 and
insertion-sort it down, then increment n4.  The insertion loop is unrolled
per value of n4; the catch-all arm is only reached with n4 = 4 because Push
guards this branch with n4 < 5. -/
def p2Insert (s : P2Quantile) (x : Rat) : P2Quantile :=
  match s.n4 with
  | 0 => { s with q0 := x, n4 := 1 }
  | 1 =>
      if s.q0 > x then { s with q0 := x, q1 := s.q0, n4 := 2 }
      else { s with q1 := x, n4 := 2 }
  | 2 =>
      if s.q1 > x then
        if s.q0 > x then { s with q0 := x, q1 := s.q0, q2 := s.q1, n4 := 3 }
        else { s with q1 := x, q2 := s.q1, n4 := 3 }
      else { s with q2 := x, n4 := 3 }
  | 3 =>
      if s.q2 > x then
        if s.q1 > x then
          if s.q0 > x then { s with q0 := x, q1 := s.q0, q2 := s.q1, q3 := s.q2, n4 := 4 }
          else { s with q1 := x, q2 := s.q1, q3 := s.q2, n4 := 4 }
        else { s with q2 := x, q3 := s.q2, n4 := 4 }
      else { s with q3 := x, n4 := 4 }
  | _ =>
      if s.q3 > x then
        if s.q2 > x then
          if s.q1 > x then
            if s.q0 > x then
              { s with q0 := x, q1 := s.q0, q2 := s.q1, q3 := s.q2, q4 := s.q3, n4 := 5 }
            else { s with q1 := x, q2 := s.q1, q3 := s.q2, q4 := s.q3, n4 := 5 }
          else { s with q2 := x, q3 := s.q2, q4 := s.q3, n4 := 5 }
        else { s with q3 := x, q4 := s.q3, n4 := 5 }
      else { s with q4 := x, n4 := 5 }

/-- The marker adjustment of Push for one interior marker i, acting on the
neighbour values (qm, qi, qp) = (q[i-1], q[i], q[i+1]) and counts
(nm, ni, np2) = (n[i-1], n[i], n[i+1]) with target npi = np[i]; returns the
new (q[i], n[i]). -/
def p2Adjust (qm qi qp : Rat) (nm ni np2 : Nat) (npi : Rat) : Rat × Nat :=
  let d := npi - (ni : Rat)
  if (1 ≤ d ∧ ni + 1 < np2) ∨ (d ≤ -1 ∧ nm + 1 < ni) then
    let ds : Rat := if 1 ≤ d then 1 else -1
    let fNm : Rat := (nm : Rat)
    let fN : Rat := (ni : Rat)
    let fNp : Rat := (np2 : Rat)
    let qpar := qi + ds * ((fN - fNm + ds) * (qp - qi) / (fNp - fN)
                + (fNp - fN - ds) * (qi - qm) / (fN - fNm)) / (fNp - fNm)
    ((if qm < qpar ∧ qpar < qp then qpar
      else if 0 < ds then qi + ds * (qp - qi) / (fNp - fN)
      else qi + ds * (qm - qi) / (fNm - fN)),
     if 0 < ds then ni + 1 else ni - 1)
  else (qi, ni)

/-- The steady-state tail shared by the six cell-location cases of Push:
k is the located cell, q0 and q4 the possibly updated extremes.  Counts
above k are incremented, all targets advance by their dnp, and markers
1, 2, 3 are adjusted in order, each seeing the already adjusted values of
the markers below it. -/
def p2Assemble (s : P2Quantile) (k : Nat) (q0 q4 : Rat) : P2Quantile :=
  let n1 := if k < 1 then s.n1 + 1 else s.n1
  let n2 := if k < 2 then s.n2 + 1 else s.n2
  let n3 := if k < 3 then s.n3 + 1 else s.n3
  let n4 := s.n4 + 1
  let np1 := s.np1 + s.dnp1
  let np2 := s.np2 + s.dnp2
  let np3 := s.np3 + s.dnp3
  let a1 := p2Adjust q0 s.q1 s.q2 s.n0 n1 n2 np1
  let a2 := p2Adjust a1.1 s.q2 s.q3 a1.2 n2 n3 np2
  let a3 := p2Adjust a2.1 s.q3 q4 a2.2 n3 n4 np3
  { s with
    q0 := q0, q1 := a1.1, q2 := a2.1, q3 := a3.1, q4 := q4
    n1 := a1.2, n2 := a2.2, n3 := a3.2, n4 := n4
    np0 := s.np0 + s.dnp0, np1 := np1, np2 := np2, np3 := np3
    np4 := s.np4 + s.dnp4 }

/-- Push from the P2Quantile source: initialization for the first five
samples, then cell location (the six-way switch, with new-minimum and
new-maximum updates) followed by the shared steady-state tail. -/
def P2Quantile.Push (s : P2Quantile) (x : Rat) : P2Quantile :=
  if s.n4 < 5 then p2Insert s x
  else if x < s.q0 then p2Assemble s 0 x s.q4
  else if x < s.q1 then p2Assemble s 0 s.q0 s.q4
  else if x < s.q2 then p2Assemble s 1 s.q0 s.q4
  else if x < s.q3 then p2Assemble s 2 s.q0 s.q4
  else if x < s.q4 then p2Assemble s 3 s.q0 s.q4
  else p2Assemble s 3 s.q0 x

theorem p2Adjust_spec (qm qi qp : Rat) (nm ni np2 : Nat) (npi : Rat)
    (hq1 : qm ≤ qi) (hq2 : qi ≤ qp) (hn1 : nm < ni) (hn2 : ni < np2) :
    (qm ≤ (p2Adjust qm qi qp nm ni np2 npi).1
      ∧ (p2Adjust qm qi qp nm ni np2 npi).1 ≤ qp)
  ∧ (nm < (p2Adjust qm qi qp nm ni np2 npi).2
      ∧ (p2Adjust qm qi qp nm ni np2 npi).2 < np2) := by
  have hfn1 : (1 : Rat) ≤ (np2 : Rat) - (ni : Rat) := by
    have : (ni : Rat) + 1 ≤ (np2 : Rat) := by exact_mod_cast hn2
    linarith
  have hfn2 : (1 : Rat) ≤ (ni : Rat) - (nm : Rat) := by
    have : (nm : Rat) + 1 ≤ (ni : Rat) := by exact_mod_cast hn1
    linarith
  simp only [p2Adjust]
  split
  · next hcond =>
      by_cases hd : (1 : Rat) ≤ npi - (ni : Rat)
      · have hguard : ni + 1 < np2 := by
          rcases hcond with ⟨-, h⟩ | ⟨h1, -⟩
          · exact h
          · linarith
        rw [if_pos hd]
        constructor
        · simp only [if_pos (by norm_num : (0 : Rat) < 1)]
          split
          · next hacc => exact ⟨le_of_lt hacc.1, le_of_lt hacc.2⟩
          · have hone : (1 : Rat) * (qp - qi) / ((np2 : Rat) - (ni : Rat))
                = (qp - qi) / ((np2 : Rat) - (ni : Rat)) := by
              rw [one_mul]
            have hnn : (0 : Rat) ≤ (qp - qi) / ((np2 : Rat) - (ni : Rat)) :=
              div_nonneg (by linarith) (by linarith)
            have hub : (qp - qi) / ((np2 : Rat) - (ni : Rat)) ≤ qp - qi :=
              div_le_self (by linarith) hfn1
            rw [hone]
            constructor
            · linarith
            · linarith
        · simp only [if_pos (by norm_num : (0 : Rat) < 1)]
          omega
      · have hguard : nm + 1 < ni := by
          rcases hcond with ⟨h1, -⟩ | ⟨-, h⟩
          · exact absurd h1 hd
          · exact h
        rw [if_neg hd]
        have hds : ¬((0 : Rat) < -1) := by norm_num
        constructor
        · simp only [if_neg hds]
          split
          · next hacc => exact ⟨le_of_lt hacc.1, le_of_lt hacc.2⟩
          · have hd1 : ((nm : Rat) - (ni : Rat)) ≠ 0 := by
              have hlt : (nm : Rat) - (ni : Rat) < 0 := by linarith
              exact ne_of_lt hlt
            have hd2 : ((ni : Rat) - (nm : Rat)) ≠ 0 := by
              have hgt : (0 : Rat) < (ni : Rat) - (nm : Rat) := by linarith
              exact ne_of_gt hgt
            have hkey : (-1 : Rat) * (qm - qi) / ((nm : Rat) - (ni : Rat))
                = -((qi - qm) / ((ni : Rat) - (nm : Rat))) := by
              rw [← neg_div, div_eq_div_iff hd1 hd2]
              ring
            have hnn : (0 : Rat) ≤ (qi - qm) / ((ni : Rat) - (nm : Rat)) :=
              div_nonneg (by linarith) (by linarith)
            have hub : (qi - qm) / ((ni : Rat) - (nm : Rat)) ≤ qi - qm :=
              div_le_self (by linarith) hfn2
            rw [hkey]
            constructor
            · linarith
            · linarith
        · simp only [if_neg hds]
          omega
  · exact ⟨⟨hq1, hq2⟩, hn1, hn2⟩

/-- The steady-state marker invariants of the claim: q nondecreasing, n
strictly increasing, n0 = 1, n4 = number of samples seen. -/
def P2Inv (s : P2Quantile) (cnt : Nat) : Prop :=
  (s.q0 ≤ s.q1 ∧ s.q1 ≤ s.q2 ∧ s.q2 ≤ s.q3 ∧ s.q3 ≤ s.q4)
  ∧ s.n0 = 1
  ∧ (s.n0 < s.n1 ∧ s.n1 < s.n2 ∧ s.n2 < s.n3 ∧ s.n3 < s.n4)
  ∧ s.n4 = cnt

/-- The invariant of the initialization phase: n4 counts the samples, the
other counts still hold their initial values, and the first n4 marker
heights are sorted. -/
def P2InitInv (s : P2Quantile) (cnt : Nat) : Prop :=
  s.n4 = cnt ∧ s.n0 = 1 ∧ s.n1 = 2 ∧ s.n2 = 3 ∧ s.n3 = 4
  ∧ (2 ≤ s.n4 → s.q0 ≤ s.q1) ∧ (3 ≤ s.n4 → s.q1 ≤ s.q2)
  ∧ (4 ≤ s.n4 → s.q2 ≤ s.q3) ∧ (5 ≤ s.n4 → s.q3 ≤ s.q4)

theorem p2Assemble_inv (s : P2Quantile) (k : Nat) (q0 q4 : Rat) (cnt : Nat)
    (hinv : P2Inv s cnt) (hq0 : q0 ≤ s.q1) (hq4 : s.q3 ≤ q4) :
    P2Inv (p2Assemble s k q0 q4) (cnt + 1) := by
  obtain ⟨⟨hq01, hq12, hq23, hq34⟩, hn0, ⟨hn01, hn12, hn23, hn34⟩, hcnt⟩ := hinv
  have hn01p : s.n0 < (if k < 1 then s.n1 + 1 else s.n1) := by split_ifs <;> omega
  have hn12p : (if k < 1 then s.n1 + 1 else s.n1) < (if k < 2 then s.n2 + 1 else s.n2) := by
    split_ifs <;> omega
  have hn23p : (if k < 2 then s.n2 + 1 else s.n2) < (if k < 3 then s.n3 + 1 else s.n3) := by
    split_ifs <;> omega
  have hn34p : (if k < 3 then s.n3 + 1 else s.n3) < s.n4 + 1 := by split_ifs <;> omega
  have A1 := p2Adjust_spec q0 s.q1 s.q2 s.n0 (if k < 1 then s.n1 + 1 else s.n1)
      (if k < 2 then s.n2 + 1 else s.n2) (s.np1 + s.dnp1) hq0 hq12 hn01p hn12p
  have A2 := p2Adjust_spec
      (p2Adjust q0 s.q1 s.q2 s.n0 (if k < 1 then s.n1 + 1 else s.n1)
        (if k < 2 then s.n2 + 1 else s.n2) (s.np1 + s.dnp1)).1
      s.q2 s.q3
      (p2Adjust q0 s.q1 s.q2 s.n0 (if k < 1 then s.n1 + 1 else s.n1)
        (if k < 2 then s.n2 + 1 else s.n2) (s.np1 + s.dnp1)).2
      (if k < 2 then s.n2 + 1 else s.n2) (if k < 3 then s.n3 + 1 else s.n3)
      (s.np2 + s.dnp2) A1.1.2 hq23 A1.2.2 hn23p
  have A3 := p2Adjust_spec
      (p2Adjust
        (p2Adjust q0 s.q1 s.q2 s.n0 (if k < 1 then s.n1 + 1 else s.n1)
        (if k < 2 then s.n2 + 1 else s.n2) (s.np1 + s.dnp1)).1
        s.q2 s.q3
        (p2Adjust q0 s.q1 s.q2 s.n0 (if k < 1 then s.n1 + 1 else s.n1)
        (if k < 2 then s.n2 + 1 else s.n2) (s.np1 + s.dnp1)).2
        (if k < 2 then s.n2 + 1 else s.n2) (if k < 3 then s.n3 + 1 else s.n3)
        (s.np2 + s.dnp2)).1
      s.q3 q4
      (p2Adjust
        (p2Adjust q0 s.q1 s.q2 s.n0 (if k < 1 then s.n1 + 1 else s.n1)
        (if k < 2 then s.n2 + 1 else s.n2) (s.np1 + s.dnp1)).1
        s.q2 s.q3
        (p2Adjust q0 s.q1 s.q2 s.n0 (if k < 1 then s.n1 + 1 else s.n1)
        (if k < 2 then s.n2 + 1 else s.n2) (s.np1 + s.dnp1)).2
        (if k < 2 then s.n2 + 1 else s.n2) (if k < 3 then s.n3 + 1 else s.n3)
        (s.np2 + s.dnp2)).2
      (if k < 3 then s.n3 + 1 else s.n3) (s.n4 + 1) (s.np3 + s.dnp3)
      A2.1.2 hq4 A2.2.2 hn34p
  refine ⟨⟨A1.1.1, A2.1.1, A3.1.1, A3.1.2⟩, hn0, ⟨A1.2.1, A2.2.1, A3.2.1, A3.2.2⟩, ?_⟩
  show s.n4 + 1 = cnt + 1
  omega

theorem p2Insert_initInv (s : P2Quantile) (x : Rat) (cnt : Nat) (hcnt : cnt < 5)
    (hinv : P2InitInv s cnt) : P2InitInv (p2Insert s x) (cnt + 1) := by
  obtain ⟨hn4, hn0, hn1, hn2, hn3, h01, h12, h23, h34⟩ := hinv
  obtain ⟨pp, n0, n1, n2, n3, n4, np0, np1, np2, np3, np4,
    dnp0, dnp1, dnp2, dnp3, dnp4, q0, q1, q2, q3, q4⟩ := s
  simp only at hn4 hn0 hn1 hn2 hn3 h01 h12 h23 h34
  interval_cases cnt
  · subst hn4
    simp only [p2Insert]
    dsimp only [P2InitInv]
    refine ⟨rfl, hn0, hn1, hn2, hn3, fun hg => ?_, fun hg => ?_, fun hg => ?_, fun hg => ?_⟩ <;>
      exact absurd hg (by omega)
  · subst hn4
    simp only [p2Insert]
    split_ifs with hgt1 <;>
      dsimp only [P2InitInv] <;>
      refine ⟨rfl, hn0, hn1, hn2, hn3, fun hg => ?_, fun hg => ?_, fun hg => ?_, fun hg => ?_⟩ <;>
      first
        | exact absurd hg (by omega)
        | linarith
  · subst hn4
    have s01 : q0 ≤ q1 := h01 (by omega)
    simp only [p2Insert]
    split_ifs with hgt1 hgt2 <;>
      dsimp only [P2InitInv] <;>
      refine ⟨rfl, hn0, hn1, hn2, hn3, fun hg => ?_, fun hg => ?_, fun hg => ?_, fun hg => ?_⟩ <;>
      first
        | exact absurd hg (by omega)
        | linarith
  · subst hn4
    have s01 : q0 ≤ q1 := h01 (by omega)
    have s12 : q1 ≤ q2 := h12 (by omega)
    simp only [p2Insert]
    split_ifs with hgt1 hgt2 hgt3 <;>
      dsimp only [P2InitInv] <;>
      refine ⟨rfl, hn0, hn1, hn2, hn3, fun hg => ?_, fun hg => ?_, fun hg => ?_, fun hg => ?_⟩ <;>
      first
        | exact absurd hg (by omega)
        | linarith
  · subst hn4
    have s01 : q0 ≤ q1 := h01 (by omega)
    have s12 : q1 ≤ q2 := h12 (by omega)
    have s23 : q2 ≤ q3 := h23 (by omega)
    simp only [p2Insert]
    split_ifs with hgt1 hgt2 hgt3 hgt4 <;>
      dsimp only [P2InitInv] <;>
      refine ⟨rfl, hn0, hn1, hn2, hn3, fun hg => ?_, fun hg => ?_, fun hg => ?_, fun hg => ?_⟩ <;>
      first
        | exact absurd hg (by omega)
        | linarith

/-- The combined phase invariant: initialization for fewer than five samples,
the steady-state invariants from five samples on. -/
def P2Phase (s : P2Quantile) (cnt : Nat) : Prop :=
  if cnt < 5 then P2InitInv s cnt else P2Inv s cnt

theorem p2Push_phase (s : P2Quantile) (x : Rat) (cnt : Nat) (h : P2Phase s cnt) :
    P2Phase (s.Push x) (cnt + 1) := by
  rw [P2Phase] at h
  rw [P2Phase]
  rcases lt_or_ge cnt 5 with hlt | hge
  · rw [if_pos hlt] at h
    have hn4 : s.n4 = cnt := h.1
    rcases lt_or_ge (cnt + 1) 5 with hlt2 | hge2
    · rw [if_pos hlt2, P2Quantile.Push, if_pos (by omega)]
      exact p2Insert_initInv s x cnt hlt h
    · have hc4 : cnt = 4 := by omega
      subst hc4
      rw [if_neg (by omega), P2Quantile.Push, if_pos (by omega)]
      have h5 := p2Insert_initInv s x 4 (by omega) h
      obtain ⟨hn4f, hn0f, hn1f, hn2f, hn3f, g01, g12, g23, g34⟩ := h5
      exact ⟨⟨g01 (by omega), g12 (by omega), g23 (by omega), g34 (by omega)⟩, hn0f,
        ⟨by omega, by omega, by omega, by omega⟩, hn4f⟩
  · rw [if_neg (by omega)] at h
    rw [if_neg (by omega)]
    obtain ⟨⟨hq01, hq12, hq23, hq34⟩, hn0, hstrict, hcnt⟩ := h
    rw [P2Quantile.Push, if_neg (by omega)]
    split_ifs with h1 h2 h3 h4 h5x
    · exact p2Assemble_inv s 0 x s.q4 cnt
        ⟨⟨hq01, hq12, hq23, hq34⟩, hn0, hstrict, hcnt⟩ (by linarith) hq34
    · exact p2Assemble_inv s 0 s.q0 s.q4 cnt
        ⟨⟨hq01, hq12, hq23, hq34⟩, hn0, hstrict, hcnt⟩ hq01 hq34
    · exact p2Assemble_inv s 1 s.q0 s.q4 cnt
        ⟨⟨hq01, hq12, hq23, hq34⟩, hn0, hstrict, hcnt⟩ hq01 hq34
    · exact p2Assemble_inv s 2 s.q0 s.q4 cnt
        ⟨⟨hq01, hq12, hq23, hq34⟩, hn0, hstrict, hcnt⟩ hq01 hq34
    · exact p2Assemble_inv s 3 s.q0 s.q4 cnt
        ⟨⟨hq01, hq12, hq23, hq34⟩, hn0, hstrict, hcnt⟩ hq01 hq34
    · exact p2Assemble_inv s 3 s.q0 x cnt
        ⟨⟨hq01, hq12, hq23, hq34⟩, hn0, hstrict, hcnt⟩ hq01 (by linarith)

def p2Fold (p : Rat) (xs : List Rat) : P2Quantile :=
  xs.foldl P2Quantile.Push (NewP2Quantile p)

theorem p2Fold_phase (xs : List Rat) : ∀ (s : P2Quantile) (cnt : Nat), P2Phase s cnt →
    P2Phase (xs.foldl P2Quantile.Push s) (cnt + xs.length) := by
  induction xs with
  | nil => intro s cnt h; simpa using h
  | cons x xs ih =>
      intro s cnt h
      rw [List.foldl_cons]
      have hrec := ih (s.Push x) (cnt + 1) (p2Push_phase s x cnt h)
      have heq : cnt + (x :: xs).length = cnt + 1 + xs.length := by
        rw [List.length_cons]
        omega
      rw [heq]
      exact hrec

theorem p2Phase_new (p : Rat) : P2Phase (NewP2Quantile p) 0 := by
  rw [P2Phase, if_pos (by omega)]
  dsimp only [P2InitInv, NewP2Quantile]
  refine ⟨rfl, rfl, rfl, rfl, rfl, ?_, ?_, ?_, ?_⟩ <;>
    intro hg <;> exact absurd hg (by omega)

/-- C5: after pushing at least five samples, the marker arrays of a
P2Quantile satisfy: the marker heights q are nondecreasing, the marker
positions n are strictly increasing, n[0] = 1, and n[4] equals the total
number of samples pushed. -/
theorem p2quantile_invariants (p : Rat) (xs : List Rat) (h5 : 5 ≤ xs.length) :
    ((p2Fold p xs).q0 ≤ (p2Fold p xs).q1 ∧ (p2Fold p xs).q1 ≤ (p2Fold p xs).q2
      ∧ (p2Fold p xs).q2 ≤ (p2Fold p xs).q3 ∧ (p2Fold p xs).q3 ≤ (p2Fold p xs).q4)
  ∧ (p2Fold p xs).n0 = 1
  ∧ ((p2Fold p xs).n0 < (p2Fold p xs).n1 ∧ (p2Fold p xs).n1 < (p2Fold p xs).n2
      ∧ (p2Fold p xs).n2 < (p2Fold p xs).n3 ∧ (p2Fold p xs).n3 < (p2Fold p xs).n4)
  ∧ (p2Fold p xs).n4 = xs.length := by
  have hph := p2Fold_phase xs (NewP2Quantile p) 0 (p2Phase_new p)
  rw [P2Phase, Nat.zero_add, if_neg (by omega)] at hph
  exact hph

theorem p2quantile_invariants_witness :
    (5 ≤ ([3, 1, 4, 1, 5, 9, 2] : List Rat).length)
  ∧ (p2Fold (1 / 2) [3, 1, 4, 1, 5, 9, 2]).n4 = ([3, 1, 4, 1, 5, 9, 2] : List Rat).length :=
  ⟨by decide,
    (p2quantile_invariants (1 / 2) [3, 1, 4, 1, 5, 9, 2] (by decide)).2.2.2⟩
